import Mathlib

/-!
# Part summary export of `mscore/json.cpp`

A shallow embedding of the functions `stavesToJson`, `partsAreEqual`,
`getPartsOnsets` and of the parts of `MuseScore::getPartsDescriptions` that
assign the part ids, compute `parts_equal` and save and restore the relative
tempo, followed by the properties proved about them.

Modelling conventions

* C++ `int` values (ticks, pitches, durations) are integers; the one `int`
  addition of the source, `tick + dur`, is taken modulo `2^32` into the range
  of a 32-bit `int` (`wrapInt`), so a sum past `2147483647` comes out
  negative.
* Objects reached through pointers are values carrying their address; pointer
  comparison is comparison of addresses.
* The polymorphic `Element` tree is flattened to the list the traversal
  (`scanElements`) delivers; only the fields the functions read are kept.
* An invalid access of the source (a null `lastMeasure()`, `last()` on an empty
  list, an index past the end of a list) has no result: the functions that can
  reach one return an `Option`.
* `tempomap->tick2time` is a parameter with values in an arbitrary type of
  times.
-/

namespace Ms

/-! ## Data model -/

/-- A `Part` object: the address of the score that owns it (`p->score()`), its
own address, and its string id (`p->id()`). -/
structure Part where
  score : Nat
  addr : Nat
  id : String
deriving DecidableEq, Repr

/-- A leaf element delivered by the traversal, by runtime type tag.
For a `NOTE`: the part of the staff of its chord, the tick of the chord's
segment, `ppitch()` and the chord's `durationTypeTicks()`.
For a `REST`: its part, the tick of its segment and its
`durationTypeTicks()`. Every other element type is `other`. -/
inductive Element where
  | note (part : Part) (tick : Int) (pitch : Int) (dur : Int)
  | rest (part : Part) (tick : Int) (dur : Int)
  | other
deriving DecidableEq, Repr

/-- A measure: `tick()` and `ticks()`, both kept in tick units (the source adds
the two as fractions and converts the sum to ticks). -/
structure Measure where
  tick : Int
  ticks : Int
deriving DecidableEq, Repr

/-- A `Score` object, reduced to what the export reads:
`parts()`, the elements collected page by page, system by system, measure by
measure with `scanElements(.., false)` (used by `partsAreEqual`), the elements
collected by `score->scanElements(.., true)` (used by `getPartsOnsets`), and
`lastMeasure()` (null when the score has no measure). -/
structure Score where
  parts : List Part
  pageElems : List Element
  elems : List Element
  lastMeasure : Option Measure
deriving Repr

/-! ## `partsAreEqual` -/

/-- First loop of `partsAreEqual`: the `(tick, pitch)` of every `NOTE` element
whose staff belongs to part `p`, in traversal order. The source keeps the two
components in the parallel lists `ticks` and `pitches`. -/
def notesOf (p : Part) (elems : List Element) : List (Int × Int) :=
  elems.filterMap fun e =>
    match e with
    | .note part tick pitch _ => if part.addr ≠ p.addr then none else some (tick, pitch)
    | _ => none

/-- Second loop of `partsAreEqual`, with the loop variable `equal` and the two
lists `ticks`, `pitches` that are consumed from the front. `first()` is only
evaluated behind the `size() > 0` test, as in the source. -/
def matchLoop (p2 : Part) : List Element → Bool → List Int → List Int → Bool
  | [], equal, _, _ => equal
  | .note part tick pitch _ :: es, equal, ticks, pitches =>
    if part.addr ≠ p2.addr then matchLoop p2 es equal ticks pitches
    else
      let equal1 := equal && decide (ticks.length > 0) &&
        (ticks.headD 0 == tick) && (pitches.headD 0 == pitch)
      if !equal1 then equal1
      else matchLoop p2 es equal1 ticks.tail pitches.tail
  | _ :: es, equal, ticks, pitches => matchLoop p2 es equal ticks pitches

/-- The function `partsAreEqual(p1, p2)`. `scoreAt` is the memory: the score
object found at an address. -/
def partsAreEqual (scoreAt : Nat → Score) (p1 p2 : Part) : Bool :=
  let cs := p1.score
  if cs ≠ p2.score then false
  else
    let elems := (scoreAt cs).pageElems
    let ticks := (notesOf p1 elems).map Prod.fst
    let pitches := (notesOf p1 elems).map Prod.snd
    matchLoop p2 elems true ticks pitches

/-- The `(tick, pitch)` note sequence of part `p` in the traversal
`partsAreEqual` performs on the score of `p`. -/
def noteSeq (scoreAt : Nat → Score) (p : Part) : List (Int × Int) :=
  notesOf p (scoreAt p.score).pageElems

/-- The loop of `getPartsDescriptions` that computes `parts_equal` for an
enumerated list of parts: `p0` is the first part met, `equal` the flag. -/
def partsEqualLoop (scoreAt : Nat → Score) : List Part → Option Part → Bool → Bool
  | [], _, equal => equal
  | part :: rest, none, equal => partsEqualLoop scoreAt rest (some part) equal
  | part :: rest, some p0, equal =>
    partsEqualLoop scoreAt rest (some p0) (equal && partsAreEqual scoreAt p0 part)

/-- The value stored under `"parts_equal"` for the enumerated parts. -/
def partsEqualFlag (scoreAt : Nat → Score) (parts : List Part) : Bool :=
  partsEqualLoop scoreAt parts none true

/-! ## `getPartsOnsets` -/

/-- A `QMap<QString, T>`: at most one entry per key. The order in which
`keys()` lists the keys is not modelled (every output is itself keyed). -/
def QMap (α : Type) := List (String × α)

namespace QMap

/-- The empty map. -/
def empty {α : Type} : QMap α := ([] : List (String × α))

/-- The entry stored under `k`, if there is one. -/
def find? {α : Type} : QMap α → String → Option α
  | [], _ => none
  | (k1, v) :: m, k => if k1 = k then some v else find? m k

/-- Reading `m[k]`: the stored value, or the default-constructed value `d` when
the key is absent (`0` for `int`, the empty list for `QList`). That such a read
also enters the key is not modelled: the only key set the source looks at is
that of `ponsets`, and an absent key of `ponsets` is only ever accessed by the
`push_back` that writes it. -/
def value {α : Type} (m : QMap α) (k : String) (d : α) : α :=
  (m.find? k).getD d

/-- Writing `m[k] = v`. -/
def insert {α : Type} : QMap α → String → α → QMap α
  | [], k, v => [(k, v)]
  | (k1, v1) :: m, k, v => if k1 = k then (k, v) :: m else (k1, v1) :: insert m k v

/-- The keys of the map, `m.keys()`. -/
def keys {α : Type} (m : QMap α) : List String :=
  List.map Prod.fst m

end QMap

/-- The five maps of `getPartsOnsets`, all keyed by part id. -/
structure OnsetState where
  plt : QMap Int
  ponsets : QMap (List Int)
  pisrest : QMap (List Bool)
  firstNonRest : QMap Int
  lastNonRest : QMap Int

/-- The maps before the initialisation loop. -/
def OnsetState.empty : OnsetState :=
  ⟨QMap.empty, QMap.empty, QMap.empty, QMap.empty, QMap.empty⟩

/-- Body of the initialisation loop `for (const Part * p: score->parts())`. -/
def initPart (final_tick : Int) (st : OnsetState) (p : Part) : OnsetState :=
  let pid := p.id
  { ponsets := st.ponsets.insert pid []
    pisrest := st.pisrest.insert pid []
    plt := st.plt.insert pid (-1)
    firstNonRest := st.firstNonRest.insert pid final_tick
    lastNonRest := st.lastNonRest.insert pid 0 }

/-- The statement `if (tick > plt[pid]) .. else if (tick == plt[pid]) ..`.
`isRest` is `e->type() == REST`. `last()` on an empty list is an invalid
access: the result is `none`. -/
def mergeOnset (st : OnsetState) (pid : String) (tick : Int) (isRest : Bool) :
    Option OnsetState :=
  if tick > st.plt.value pid 0 then
    some { st with
      ponsets := st.ponsets.insert pid (st.ponsets.value pid [] ++ [tick])
      pisrest := st.pisrest.insert pid (st.pisrest.value pid [] ++ [isRest])
      plt := st.plt.insert pid tick }
  else if tick = st.plt.value pid 0 then
    match (st.pisrest.value pid []).getLast? with
    | none => none
    | some b =>
      some { st with
        pisrest := st.pisrest.insert pid ((st.pisrest.value pid []).dropLast ++ [b && isRest]) }
  else some st

/-- The largest value of a 32-bit `int`. -/
def INT_MAX : Int := 2147483647

/-- The smallest value of a 32-bit `int`. -/
def INT_MIN : Int := -2147483648

/-- The 32-bit `int` that holds the integer `x`: `x` modulo `2^32`, taken in
the range from `INT_MIN` to `INT_MAX`. -/
def wrapInt (x : Int) : Int :=
  (x + 2147483648) % 4294967296 - 2147483648

/-- The two statements that update the bounds when the element is a `NOTE`;
the sum `tick+dur` is an `int`. -/
def updateBounds (st : OnsetState) (pid : String) (tick dur : Int) : OnsetState :=
  let st1 : OnsetState :=
    if tick < st.firstNonRest.value pid 0 then
      { st with firstNonRest := st.firstNonRest.insert pid tick }
    else st
  if wrapInt (tick + dur) > st1.lastNonRest.value pid 0 then
    { st1 with lastNonRest := st1.lastNonRest.insert pid (wrapInt (tick + dur)) }
  else st1

/-- Body of the aggregation loop `for (const Element * e: elems)`. -/
def processElem (st : OnsetState) (e : Element) : Option OnsetState :=
  match e with
  | .note part tick _ dur => mergeOnset (updateBounds st part.id tick dur) part.id tick false
  | .rest part tick _ => mergeOnset st part.id tick true
  | .other => some st

/-- The value of `final_tick`: `lastm->tick() + lastm->ticks()`; dereferencing a
null `lastMeasure()` gives no result. -/
def finalTick (score : Score) : Option Int :=
  score.lastMeasure.map fun lastm => lastm.tick + lastm.ticks

/-- The maps after the initialisation loop and the aggregation loop. -/
def aggregate (score : Score) : Option OnsetState :=
  match finalTick score with
  | none => none
  | some final_tick =>
    score.elems.foldlM processElem (score.parts.foldl (initPart final_tick) OnsetState.empty)

/-- One member of the `"onsets"` object. `τ` is the type of times. -/
structure OnsetObj (τ : Type) where
  ticks : List Int
  times : List τ
  nonrest_ticks : List Int
  beg_tick : Int
  end_tick : Int
  beg_time : τ
  end_time : τ

/-- The loop `for (int i=0;i<consets.size();i++)`, building `tar`, `ar` and
`nrar`; the two lists are walked together, and `cisrest[i]` beyond the end of
`cisrest` is an invalid access: the result is `none`. -/
def outputLists {τ : Type} (tick2time : Int → τ) :
    List Int → List Bool → Option (List Int × List τ × List Int)
  | [], _ => some ([], [], [])
  | _ :: _, [] => none
  | tick :: consets, r :: cisrest =>
    match outputLists tick2time consets cisrest with
    | none => none
    | some (tar, ar, nrar) =>
      some (tick :: tar, tick2time tick :: ar, if !r then tick :: nrar else nrar)

/-- Body of the output loop: the object built for one key. -/
def onsetObj {τ : Type} (tick2time : Int → τ) (st : OnsetState) (key : String) :
    Option (OnsetObj τ) :=
  match outputLists tick2time (st.ponsets.value key []) (st.pisrest.value key []) with
  | none => none
  | some (tar, ar, nrar) =>
    some
      { ticks := tar
        times := ar
        nonrest_ticks := nrar
        beg_tick := st.firstNonRest.value key 0
        end_tick := st.lastNonRest.value key 0
        beg_time := tick2time (st.firstNonRest.value key 0)
        end_time := tick2time (st.lastNonRest.value key 0) }

/-- The output loop `for (QString key: ponsets.keys())`: one member per key. -/
def outputAll {τ : Type} (tick2time : Int → τ) (st : OnsetState) :
    List String → Option (QMap (OnsetObj τ))
  | [] => some QMap.empty
  | key :: keys =>
    match onsetObj tick2time st key, outputAll tick2time st keys with
    | some obj, some jsonobj => some ((key, obj) :: jsonobj)
    | _, _ => none

/-- The function `getPartsOnsets(score)`; `tick2time` is
`score->tempomap()->tick2time`. -/
def getPartsOnsets {τ : Type} (tick2time : Int → τ) (score : Score) :
    Option (QMap (OnsetObj τ)) :=
  match aggregate score with
  | none => none
  | some st => outputAll tick2time st st.ponsets.keys


/-! ## `stavesToJson` -/

/-- A `Fraction` value, as passed to the staff queries. -/
structure Fraction where
  numerator : Int
  denominator : Int
deriving DecidableEq, Repr

/-- A `Staff`, reduced to the three queries `stavesToJson` makes; each takes
the position at which the staff type is asked for. -/
structure Staff where
  isPitchedStaff : Fraction → Bool
  isDrumStaff : Fraction → Bool
  isTabStaff : Fraction → Bool

/-- The JSON object `sobj` built for one staff: its member `"type"`. -/
structure StaffObj where
  type : String
deriving DecidableEq, Repr

/-- Body of the loop of `stavesToJson`: the nested conditional expression
assigned to `sobj["type"]`, with every query made at `Fraction(0,1)`. -/
def staffObj (staff : Staff) : StaffObj :=
  { type :=
      if staff.isPitchedStaff ⟨0, 1⟩ then "standard"
      else if staff.isDrumStaff ⟨0, 1⟩ then "percussion"
      else if staff.isTabStaff ⟨0, 1⟩ then "tab"
      else "unknown" }

/-- The function `stavesToJson(score)`; the argument is `score->staves()`, and
the loop appends one object per staff to `s_ar`. -/
def stavesToJson (staves : List Staff) : List StaffObj :=
  staves.foldl (fun s_ar staff => s_ar ++ [staffObj staff]) []

/-! ## `getPartsDescriptions` -/

/-- `QString::number(n)` for a non-negative `n`: the decimal string. -/
def QString.number (n : Nat) : String :=
  Nat.repr n

/-- The number a string of decimal digits stands for. -/
def decimalValue (s : String) : Nat :=
  s.data.foldl (fun a c => 10 * a + (c.toNat - 48)) 0

/-- The JSON object `pobj` built for one part. -/
structure PartObj where
  id : String
  instrument : String
  name : String
deriving DecidableEq, Repr

/-- The loop `for (Part * part: score->masterScore()->parts())` of
`getPartsDescriptions`, from the value `pi` of the counter: `setId` changes
the id of the part object, then `pobj` is appended to `p_ar`. The result is
the list of part objects after the loop and the array `p_ar`.
`getInstrumentName(part->instrument())` and `part->partName()` are
parameters. -/
def listParts (getInstrumentName partName : Part → String) :
    List Part → Nat → List Part × List PartObj
  | [], _ => ([], [])
  | part :: rest, pi =>
    let part1 : Part := { part with id := QString.number pi }
    let r := listParts getInstrumentName partName rest (pi + 1)
    (part1 :: r.1,
      { id := part1.id, instrument := getInstrumentName part1, name := partName part1 } :: r.2)

/-- The statements of `getPartsDescriptions` that read or write a relative
tempo, in order: `rel_tempo` is saved from the score passed by the caller,
that score is set to `1.0`, the variable `score` is then assigned the result of
`unrollRepeats()`, and the last statement calls `setRelTempo(rel_tempo)` on
`score`. `relTempo` gives the relative tempo of the tempo map of the score
object at each address; `unrollRepeats` (not in this file) is a parameter that
returns the memory after the call and the address of the score it returns.
The result is the memory when `getPartsDescriptions` returns. -/
def relTempoAfter (unrollRepeats : (Nat → Rat) → Nat → (Nat → Rat) × Nat)
    (relTempo : Nat → Rat) (score : Nat) : Nat → Rat :=
  let rel_tempo := relTempo score
  let mem1 := Function.update relTempo score 1
  let r := unrollRepeats mem1 score
  let score1 := r.2
  Function.update r.1 score1 rel_tempo

/-! ## The events of one part -/

/-- A note or rest event as the aggregation loop sees it: the tick of its
segment, whether the element is a `REST`, and the duration of its container. -/
structure Ev where
  tick : Int
  isRest : Bool
  dur : Int
deriving DecidableEq, Repr

/-- The part a note or rest element belongs to (`cr->part()`). -/
def Element.part? : Element → Option Part
  | .note part _ _ _ => some part
  | .rest part _ _ => some part
  | .other => none

/-- The event an element contributes to the part with id `pid`, if any. -/
def eventOf (pid : String) : Element → Option Ev
  | .note part tick _ dur => if part.id = pid then some ⟨tick, false, dur⟩ else none
  | .rest part tick dur => if part.id = pid then some ⟨tick, true, dur⟩ else none
  | .other => none

/-- The note and rest events of the part with id `pid`, in traversal order. -/
def partEvents (pid : String) (elems : List Element) : List Ev :=
  elems.filterMap (eventOf pid)

/-- Every note and rest of the traversal belongs to a part listed by
`score->parts()` (compared by id, the key `getPartsOnsets` uses). -/
def Score.Attached (score : Score) : Prop :=
  ∀ e ∈ score.elems, ∀ p ∈ e.part?, p.id ∈ score.parts.map Part.id

/-- The five values `getPartsOnsets` keeps for one part id. -/
structure PartAcc where
  plt : Int
  onsets : List Int
  isrest : List Bool
  first : Int
  last : Int
deriving DecidableEq, Repr

/-- The values the five maps hold for `pid` (read with `operator[]`). -/
def OnsetState.view (st : OnsetState) (pid : String) : PartAcc :=
  { plt := st.plt.value pid 0
    onsets := st.ponsets.value pid []
    isrest := st.pisrest.value pid []
    first := st.firstNonRest.value pid 0
    last := st.lastNonRest.value pid 0 }

/-- `updateBounds`, on the values of one part. -/
def accBounds (a : PartAcc) (tick dur : Int) : PartAcc :=
  let a1 : PartAcc := if tick < a.first then { a with first := tick } else a
  if wrapInt (tick + dur) > a1.last then { a1 with last := wrapInt (tick + dur) } else a1

/-- `mergeOnset`, on the values of one part. -/
def accMerge (a : PartAcc) (tick : Int) (isRest : Bool) : Option PartAcc :=
  if tick > a.plt then
    some { a with onsets := a.onsets ++ [tick], isrest := a.isrest ++ [isRest], plt := tick }
  else if tick = a.plt then
    match a.isrest.getLast? with
    | none => none
    | some b => some { a with isrest := a.isrest.dropLast ++ [b && isRest] }
  else some a

/-- `processElem`, on the values of the part the event belongs to. -/
def accStep (a : PartAcc) (ev : Ev) : Option PartAcc :=
  if ev.isRest then accMerge a ev.tick true
  else accMerge (accBounds a ev.tick ev.dur) ev.tick false

/-- The values of a part id after the initialisation loop: those written by
the loop for a listed id, the default-constructed ones otherwise. -/
def initAcc (final_tick : Int) (parts : List Part) (pid : String) : PartAcc :=
  if pid ∈ parts.map Part.id then ⟨-1, [], [], final_tick, 0⟩ else ⟨0, [], [], 0, 0⟩

/-- The flags of the rest-only onsets written next to their ticks. -/
def nonrestOf (onsets : List Int) (isrest : List Bool) : List Int :=
  ((onsets.zip isrest).filter fun x => !x.2).map Prod.fst

/-- The member of `"onsets"` built from the values of one part. -/
def objOf {τ : Type} (tick2time : Int → τ) (a : PartAcc) : OnsetObj τ :=
  { ticks := a.onsets
    times := a.onsets.map tick2time
    nonrest_ticks := nonrestOf a.onsets a.isrest
    beg_tick := a.first
    end_tick := a.last
    beg_time := tick2time a.first
    end_time := tick2time a.last }

/-- The loop body run over a list of events of one part. -/
def accRun (a : PartAcc) (evs : List Ev) : Option PartAcc :=
  evs.foldlM accStep a

/-- The loop body cannot make an invalid access on these values: the two lists
have the same length, and the last-seen tick is negative while they are
empty. -/
def SafeAcc (a : PartAcc) : Prop :=
  a.isrest.length = a.onsets.length ∧ (a.onsets = [] → a.plt < 0)

/-- The onset ticks are strictly increasing and bounded by the last-seen
tick. -/
def IncAcc (a : PartAcc) : Prop :=
  a.onsets.Pairwise (· < ·) ∧ ∀ x ∈ a.onsets, x ≤ a.plt

/-- The events of every listed part have a non-negative tick. -/
def Score.NonNegTicks (score : Score) : Prop :=
  ∀ p ∈ score.parts, ∀ ev ∈ partEvents p.id score.elems, 0 ≤ ev.tick

/-- The events of every listed part come in non-decreasing tick order. -/
def Score.SortedTicks (score : Score) : Prop :=
  ∀ p ∈ score.parts, ((partEvents p.id score.elems).map Ev.tick).Pairwise (· ≤ ·)

/-- The note events among the events of the part with id `pid`. -/
def partNotes (pid : String) (elems : List Element) : List Ev :=
  (partEvents pid elems).filter fun ev => !ev.isRest

/-- The inputs on which `getPartsOnsets` is shown to return: the score has a
last measure, every note and rest belongs to a listed part, and no event of a
listed part has a negative tick. -/
def Score.WellFormed (score : Score) : Prop :=
  score.lastMeasure ≠ none ∧ score.Attached ∧ score.NonNegTicks

/-- The state of one part after the events `evs`, in non-decreasing tick order,
have been merged: `Z` pairs each onset tick with its flag; the ticks are the
distinct ticks of `evs` in increasing order, a flag is true exactly when every
event at its tick is a rest, and the last-seen tick is the last onset. -/
def Merged (evs : List Ev) (a : PartAcc) (Z : List (Int × Bool)) : Prop :=
  a.onsets = Z.map Prod.fst ∧ a.isrest = Z.map Prod.snd ∧
  (Z.map Prod.fst).Pairwise (· < ·) ∧
  (∀ t, t ∈ Z.map Prod.fst ↔ ∃ ev ∈ evs, ev.tick = t) ∧
  (∀ t b, (t, b) ∈ Z → (b = true ↔ ∀ ev ∈ evs, ev.tick = t → ev.isRest = true)) ∧
  (Z = [] ∧ a.plt = -1 ∨ ∃ Z0 b, Z = Z0 ++ [(a.plt, b)]) ∧
  (∀ ev ∈ evs, ev.tick ≤ a.plt)

/-- The event an element contributes to the part object `P` (compared by
address), if any. -/
def ownEventOf (P : Part) : Element → Option Ev
  | .note part tick _ dur => if part.addr = P.addr then some ⟨tick, false, dur⟩ else none
  | .rest part tick dur => if part.addr = P.addr then some ⟨tick, true, dur⟩ else none
  | .other => none

/-- The sub-list of the traversal events that belong to the part object `P`. -/
def ownEvents (P : Part) (elems : List Element) : List Ev :=
  elems.filterMap (ownEventOf P)

/-- The part objects a score mentions: those listed by `parts()` and those the
notes and rests of the traversal belong to. -/
def Score.allParts (score : Score) : List Part :=
  score.parts ++ score.elems.filterMap Element.part?

/-- Part ids are pairwise distinct: two mentioned parts carry the same id
exactly when they are the same object. -/
def Score.DistinctIds (score : Score) : Prop :=
  ∀ p ∈ score.allParts, ∀ q ∈ score.allParts, (p.id = q.id ↔ p.addr = q.addr)

/-- The invariant of the aggregation loop on the values of one part: the tick
list and the flag list have the same length, and the last-seen tick is `-1`
while the lists are empty and the last onset tick otherwise. -/
def LastSeenInv (a : PartAcc) : Prop :=
  a.isrest.length = a.onsets.length ∧ (a.onsets = [] → a.plt = -1) ∧
  (a.onsets ≠ [] → a.onsets.getLast? = some a.plt)

/-- The maps after the initialisation loop and the first `n` iterations of the
aggregation loop. -/
def aggregateUpTo (score : Score) (n : Nat) : Option OnsetState :=
  aggregate { score with elems := score.elems.take n }

/-! ## Example scores -/

/-- A notation part with two notes. -/
def exGuitar : Part := ⟨0, 1, "1"⟩

/-- A part that plays only the first of the two notes, then rests. -/
def exShort : Part := ⟨0, 2, "2"⟩

/-- A part with a single whole rest and no note. -/
def exSilent : Part := ⟨0, 3, "3"⟩

/-- A tablature duplicate of `exGuitar`. -/
def exTab : Part := ⟨0, 4, "4"⟩

/-- A part that differs from `exGuitar` in the pitch of the second note. -/
def exOther : Part := ⟨0, 5, "5"⟩

/-- The traversal of the example score: two beats of 480 ticks. -/
def exElems : List Element :=
  [ .note exGuitar 0 60 480, .note exShort 0 60 480, .rest exSilent 0 960,
    .note exTab 0 60 480, .note exOther 0 60 480,
    .note exGuitar 480 62 480, .rest exShort 480 480,
    .note exTab 480 62 480, .note exOther 480 64 480 ]

/-- The example score object. -/
def exScore : Score :=
  { parts := [exGuitar, exShort, exSilent, exTab, exOther]
    pageElems := exElems
    elems := exElems
    lastMeasure := some ⟨0, 960⟩ }

/-- A memory that holds the example score at every address. -/
def exScoreAt : Nat → Score := fun _ => exScore

/-- Part A of the two-part scenario: a note at tick 0, then a rest. -/
def exA : Part := ⟨1, 11, "1"⟩

/-- Part B of the two-part scenario: one rest over the whole score. -/
def exB : Part := ⟨1, 12, "2"⟩

/-- The two-part scenario; its end tick is 960. -/
def exDuo : Score :=
  { parts := [exA, exB]
    pageElems := [.note exA 0 60 480, .rest exB 0 960, .rest exA 480 480]
    elems := [.note exA 0 60 480, .rest exB 0 960, .rest exA 480 480]
    lastMeasure := some ⟨480, 480⟩ }

/-- The member expected for part A of the two-part scenario (times are ticks
under the identity tempo map). -/
def exObjA : OnsetObj Int :=
  { ticks := [0, 480], times := [0, 480], nonrest_ticks := [0]
    beg_tick := 0, end_tick := 480, beg_time := 0, end_time := 480 }

/-- The member computed for part B of the two-part scenario. -/
def exObjB : OnsetObj Int :=
  { ticks := [0], times := [0], nonrest_ticks := []
    beg_tick := 960, end_tick := 0, beg_time := 960, end_time := 0 }

/-- The `"onsets"` object of the two-part scenario. -/
def exDuoOut : QMap (OnsetObj Int) :=
  [("1", exObjA), ("2", exObjB)]

/-- A third part, without any note or rest in the traversal. -/
def exC : Part := ⟨1, 13, "3"⟩

/-- The two-part scenario with the silent third part added. -/
def exTrio : Score :=
  { parts := [exA, exB, exC]
    pageElems := exDuo.pageElems
    elems := exDuo.elems
    lastMeasure := some ⟨480, 480⟩ }

/-- The member computed for the part without events. -/
def exObjC : OnsetObj Int :=
  { ticks := [], times := [], nonrest_ticks := []
    beg_tick := 960, end_tick := 0, beg_time := 960, end_time := 0 }

/-- The `"onsets"` object of the three-part scenario. -/
def exTrioOut : QMap (OnsetObj Int) :=
  [("1", exObjA), ("2", exObjB), ("3", exObjC)]

/-- Modelled from the spec: `unrollRepeats` is not in this file; the spec has it
return an independent score copy. Here the copy sits at the next address and
starts with a tempo map of its own that holds the relative tempo of the
original at the time of the call. -/
def exUnrollRepeats (relTempo : Nat → Rat) (score : Nat) : (Nat → Rat) × Nat :=
  (Function.update relTempo (score + 1) (relTempo score), score + 1)

/-- A memory in which the score at address 0 plays at twice its nominal
tempo. -/
def exRelTempo : Nat → Rat := fun _ => 2

/-- A pitched staff, a drum staff, a tab staff and a staff of no known kind;
the second also answers yes to the tab query. -/
def exStaves : List Staff :=
  [ ⟨fun _ => true, fun _ => false, fun _ => false⟩,
    ⟨fun _ => false, fun _ => true, fun _ => true⟩,
    ⟨fun _ => false, fun _ => false, fun _ => true⟩,
    ⟨fun _ => false, fun _ => false, fun _ => false⟩ ]

/-- Three parts of one score that still carry ids from the file. -/
def exOldParts : List Part :=
  [⟨2, 31, "P7"⟩, ⟨2, 32, "P7"⟩, ⟨2, 33, "guitar"⟩]

/-- A copy of `exGuitar` that lives in the score at address 1. -/
def exGuitarElsewhere : Part := ⟨1, 21, "1"⟩

/-- A second score object: the same two notes, on `exGuitarElsewhere`. -/
def exScoreElsewhere : Score :=
  { parts := [exGuitarElsewhere]
    pageElems := [.note exGuitarElsewhere 0 60 480, .note exGuitarElsewhere 480 62 480]
    elems := [.note exGuitarElsewhere 0 60 480, .note exGuitarElsewhere 480 62 480]
    lastMeasure := some ⟨0, 960⟩ }

/-- A memory with `exScoreElsewhere` at address 1 and `exScore` elsewhere. -/
def exTwoScores : Nat → Score := fun a => if a = 1 then exScoreElsewhere else exScore

/-- A memory in which `exShort` plays a third note that `exTab` lacks; the
comparisons with `exGuitar` as first argument come out as in `exScoreAt`. -/
def exScoreAtLong : Nat → Score := fun _ =>
  { parts := [exGuitar, exShort, exTab]
    pageElems :=
      [ .note exGuitar 0 60 480, .note exShort 0 60 480, .note exTab 0 60 480,
        .note exGuitar 480 62 480, .note exShort 480 62 480, .note exTab 480 62 480,
        .note exGuitar 960 64 480, .note exShort 960 64 480 ]
    elems := []
    lastMeasure := some ⟨960, 480⟩ }

/-- Another traversal of the two parts of `exDuo`: part A has the same
events, part B plays a note after a shorter rest, and the events are
interleaved differently. -/
def exDuoAlt : Score :=
  { parts := [exA, exB]
    pageElems := []
    elems := [.rest exB 0 480, .note exA 0 60 480, .other, .note exB 480 70 480,
      .rest exA 480 480]
    lastMeasure := some ⟨0, 960⟩ }

/-- A score with final tick 960 whose one note, at tick 1, has the largest
`int` as duration. -/
def exLong : Score :=
  { parts := [exA]
    pageElems := [.note exA 1 60 2147483647]
    elems := [.note exA 1 60 2147483647]
    lastMeasure := some ⟨0, 960⟩ }

/-- The member computed for the part of `exLong`. -/
def exObjLong : OnsetObj Int :=
  { ticks := [1], times := [1], nonrest_ticks := [1]
    beg_tick := 1, end_tick := 0, beg_time := 1, end_time := 0 }

/-- A score with final tick 960 whose one note sits at the largest `int` tick
and lasts one tick. -/
def exLate : Score :=
  { parts := [exA]
    pageElems := [.note exA 2147483647 60 1]
    elems := [.note exA 2147483647 60 1]
    lastMeasure := some ⟨0, 960⟩ }

/-- The member computed for the part of `exLate`. -/
def exObjLate : OnsetObj Int :=
  { ticks := [2147483647], times := [2147483647], nonrest_ticks := [2147483647]
    beg_tick := 960, end_tick := 0, beg_time := 960, end_time := 0 }

/-! ## Properties of `partsAreEqual` -/

theorem notesOf_nil (p : Part) : notesOf p [] = [] := rfl

theorem notesOf_cons_note (p part : Part) (tick pitch dur : Int) (es : List Element) :
    notesOf p (.note part tick pitch dur :: es) =
      if part.addr = p.addr then (tick, pitch) :: notesOf p es else notesOf p es := by
  by_cases h : part.addr = p.addr <;> simp [notesOf, List.filterMap_cons, h]

theorem notesOf_cons_rest (p part : Part) (tick dur : Int) (es : List Element) :
    notesOf p (.rest part tick dur :: es) = notesOf p es := by
  simp [notesOf, List.filterMap_cons]

theorem notesOf_cons_other (p : Part) (es : List Element) :
    notesOf p (.other :: es) = notesOf p es := by
  simp [notesOf, List.filterMap_cons]

/-- The second loop accepts exactly when the notes of `p2` are an initial
segment of the recorded list. -/
theorem matchLoop_iff (p2 : Part) (es : List Element) :
    ∀ l : List (Int × Int),
      matchLoop p2 es true (l.map Prod.fst) (l.map Prod.snd) = true ↔ notesOf p2 es <+: l := by
  induction es with
  | nil => intro l; simp [matchLoop, notesOf_nil]
  | cons e es ih =>
    intro l
    cases e with
    | other => rw [notesOf_cons_other]; simpa [matchLoop] using ih l
    | rest part tick dur => rw [notesOf_cons_rest]; simpa [matchLoop] using ih l
    | note part tick pitch dur =>
      rw [notesOf_cons_note]
      by_cases h : part.addr = p2.addr
      · cases l with
        | nil => simp [matchLoop, h]
        | cons a l =>
          obtain ⟨t, q⟩ := a
          by_cases ht : t = tick
          · by_cases hq : q = pitch
            · subst ht; subst hq
              simpa [matchLoop, h] using ih l
            · have hq2 : ¬ pitch = q := fun hh => hq hh.symm
              simp [matchLoop, h, hq, hq2]
          · have ht2 : ¬ tick = t := fun hh => ht hh.symm
            simp [matchLoop, h, ht, ht2]
      · simpa [matchLoop, h] using ih l

/-- What `partsAreEqual` computes for two parts of one score. -/
theorem partsAreEqual_iff (scoreAt : Nat → Score) (p1 p2 : Part) (hs : p1.score = p2.score) :
    partsAreEqual scoreAt p1 p2 = true ↔ noteSeq scoreAt p2 <+: noteSeq scoreAt p1 := by
  unfold partsAreEqual noteSeq
  simp only [hs, ne_eq, not_true_eq_false, if_false]
  exact matchLoop_iff p2 _ _

theorem partsEqualLoop_some (scoreAt : Nat → Score) (p0 : Part) (parts : List Part) :
    ∀ equal : Bool, partsEqualLoop scoreAt parts (some p0) equal =
      (equal && parts.all fun part => partsAreEqual scoreAt p0 part) := by
  induction parts with
  | nil => intro equal; simp [partsEqualLoop]
  | cons part rest ih =>
    intro equal
    simp [partsEqualLoop, ih, Bool.and_assoc]

/-- The flag of a non-empty enumeration: every later part passes the comparison
with the first one. -/
theorem partsEqualFlag_cons (scoreAt : Nat → Score) (p0 : Part) (rest : List Part) :
    partsEqualFlag scoreAt (p0 :: rest) = rest.all fun part => partsAreEqual scoreAt p0 part := by
  simp [partsEqualFlag, partsEqualLoop, partsEqualLoop_some]

/-- C1, evaluated on the code: `exGuitar` has two notes and `exShort` only the
first of them, both in one score; the sequences have lengths 2 and 1, and
`partsAreEqual(exGuitar, exShort)` returns true. -/
theorem partsAreEqual_longer_first_true :
    exGuitar.score = exShort.score ∧
    (noteSeq exScoreAt exGuitar).length = 2 ∧
    (noteSeq exScoreAt exShort).length = 1 ∧
    partsAreEqual exScoreAt exGuitar exShort = true := by
  decide

/-- C2 as stated fails: the part `exSilent` has an empty note sequence and
`partsAreEqual(exSilent, exSilent)` returns true. -/
theorem partsAreEqual_self_iff_nonempty_fails :
    ¬ (partsAreEqual exScoreAt exSilent exSilent = true ↔ noteSeq exScoreAt exSilent ≠ []) := by
  decide

/-- C2, amended: `partsAreEqual(p, p)` returns true for every part, also when
its note sequence is empty; and `partsAreEqual(p1, p2)` is false whenever the
sequence of `p1` is empty and that of `p2` is not. -/
theorem partsAreEqual_self_and_empty_first (scoreAt : Nat → Score) (p p1 p2 : Part) :
    partsAreEqual scoreAt p p = true ∧
    (p1.score = p2.score → noteSeq scoreAt p1 = [] → noteSeq scoreAt p2 ≠ [] →
      partsAreEqual scoreAt p1 p2 = false) := by
  constructor
  · exact (partsAreEqual_iff scoreAt p p rfl).2 (List.prefix_refl _)
  · intro hs h1 h2
    cases hb : partsAreEqual scoreAt p1 p2 with
    | false => rfl
    | true =>
      have hp := (partsAreEqual_iff scoreAt p1 p2 hs).1 hb
      rw [h1] at hp
      exact absurd (List.prefix_nil.1 hp) h2

theorem partsAreEqual_self_and_empty_first_witness :
    noteSeq exScoreAt exSilent = [] ∧
    partsAreEqual exScoreAt exSilent exSilent = true ∧
    partsAreEqual exScoreAt exSilent exShort = false :=
  ⟨by decide,
    (partsAreEqual_self_and_empty_first exScoreAt exSilent exSilent exShort).1,
    (partsAreEqual_self_and_empty_first exScoreAt exSilent exSilent exShort).2
      (by decide) (by decide) (by decide)⟩

/-- C3: for two parts of one score whose note sequences have the same length
`n ≥ 1`, `partsAreEqual(p1, p2)` returns true exactly when the two sequences
are the same list of `(tick, pitch)` pairs. -/
theorem partsAreEqual_same_length (scoreAt : Nat → Score) (p1 p2 : Part)
    (hs : p1.score = p2.score)
    (hlen : (noteSeq scoreAt p1).length = (noteSeq scoreAt p2).length)
    (_hpos : 1 ≤ (noteSeq scoreAt p1).length) :
    partsAreEqual scoreAt p1 p2 = true ↔ noteSeq scoreAt p1 = noteSeq scoreAt p2 := by
  rw [partsAreEqual_iff scoreAt p1 p2 hs]
  constructor
  · intro hp
    exact (hp.eq_of_length hlen.symm).symm
  · intro he
    exact he ▸ List.prefix_refl _

theorem partsAreEqual_same_length_witness :
    (partsAreEqual exScoreAt exGuitar exTab = true ↔
      noteSeq exScoreAt exGuitar = noteSeq exScoreAt exTab) ∧
    partsAreEqual exScoreAt exGuitar exTab = true ∧
    (partsAreEqual exScoreAt exGuitar exOther = true ↔
      noteSeq exScoreAt exGuitar = noteSeq exScoreAt exOther) ∧
    partsAreEqual exScoreAt exGuitar exOther = false :=
  ⟨partsAreEqual_same_length exScoreAt exGuitar exTab (by decide) (by decide) (by decide),
    by decide,
    partsAreEqual_same_length exScoreAt exGuitar exOther (by decide) (by decide) (by decide),
    by decide⟩

/-- C4, evaluated on the code: for the enumeration `[exGuitar, exShort]` of
parts of one score the flag `parts_equal` is true although the note sequence of
`exShort` is not the note sequence of the reference part `exGuitar`. -/
theorem partsEqualFlag_true_on_different_sequences :
    (∀ p ∈ [exGuitar, exShort], p.score = 0) ∧
    partsEqualFlag exScoreAt [exGuitar, exShort] = true ∧
    noteSeq exScoreAt exShort ≠ noteSeq exScoreAt exGuitar := by
  decide

/-! ## Properties of `QMap` -/

theorem QMap.find?_insert {α : Type} (m : QMap α) (k k2 : String) (v : α) :
    QMap.find? (QMap.insert m k v) k2 = if k = k2 then some v else QMap.find? m k2 := by
  induction m with
  | nil => simp [QMap.insert, QMap.find?]
  | cons x m ih =>
    obtain ⟨k1, v1⟩ := x
    by_cases h1 : k1 = k
    · subst h1
      by_cases h2 : k1 = k2 <;> simp [QMap.insert, QMap.find?, h2]
    · by_cases h2 : k1 = k2
      · subst h2
        have h3 : ¬ k = k1 := fun h => h1 h.symm
        simp [QMap.insert, QMap.find?, h1, h3]
      · simp [QMap.insert, QMap.find?, h1, h2, ih]

theorem QMap.value_insert {α : Type} (m : QMap α) (k k2 : String) (v d : α) :
    QMap.value (QMap.insert m k v) k2 d = if k = k2 then v else QMap.value m k2 d := by
  unfold QMap.value
  rw [QMap.find?_insert]
  by_cases h : k = k2 <;> simp [h]

theorem QMap.value_insert_self {α : Type} (m : QMap α) (k : String) (v d : α) :
    QMap.value (QMap.insert m k v) k d = v := by
  simp [QMap.value_insert]

theorem QMap.value_insert_ne {α : Type} (m : QMap α) (k k2 : String) (v d : α) (h : k2 ≠ k) :
    QMap.value (QMap.insert m k v) k2 d = QMap.value m k2 d := by
  have h2 : ¬ k = k2 := fun hh => h hh.symm
  simp [QMap.value_insert, h2]

theorem QMap.mem_keys_insert {α : Type} (m : QMap α) (k k2 : String) (v : α) :
    k2 ∈ QMap.keys (QMap.insert m k v) ↔ k2 = k ∨ k2 ∈ QMap.keys m := by
  induction m with
  | nil => simp [QMap.insert, QMap.keys]
  | cons x m ih =>
    obtain ⟨k1, v1⟩ := x
    by_cases h1 : k1 = k
    · subst h1
      simp [QMap.insert, QMap.keys]
    · have ih2 : k2 ∈ List.map Prod.fst (QMap.insert m k v) ↔ k2 = k ∨ k2 ∈ List.map Prod.fst m := ih
      simp only [QMap.insert, h1, if_false, QMap.keys, List.map_cons, List.mem_cons, ih2]
      tauto

theorem QMap.find?_of_mem_keys {α : Type} (m : QMap α) (k : String) (h : k ∈ QMap.keys m) :
    ∃ v, QMap.find? m k = some v := by
  induction m with
  | nil => simp [QMap.keys] at h
  | cons x m ih =>
    obtain ⟨k1, v1⟩ := x
    by_cases h1 : k1 = k
    · exact ⟨v1, by simp [QMap.find?, h1]⟩
    · have h2 : k ∈ QMap.keys m := by
        have h3 : k = k1 ∨ k ∈ List.map Prod.fst m := by simpa [QMap.keys] using h
        rcases h3 with h3 | h3
        · exact absurd h3.symm h1
        · exact h3
      obtain ⟨v, hv⟩ := ih h2
      exact ⟨v, by simp [QMap.find?, h1, hv]⟩

/-! ## The aggregation loop, one part at a time -/

theorem view_updateBounds_self (st : OnsetState) (pid : String) (tick dur : Int) :
    (updateBounds st pid tick dur).view pid = accBounds (st.view pid) tick dur := by
  unfold updateBounds accBounds OnsetState.view
  by_cases h1 : tick < QMap.value st.firstNonRest pid 0
  · by_cases h2 : wrapInt (tick + dur) > QMap.value st.lastNonRest pid 0 <;>
      simp [h1, h2, QMap.value_insert_self]
  · by_cases h2 : wrapInt (tick + dur) > QMap.value st.lastNonRest pid 0 <;>
      simp [h1, h2, QMap.value_insert_self]

theorem view_updateBounds_ne (st : OnsetState) (pid k : String) (tick dur : Int) (h : k ≠ pid) :
    (updateBounds st pid tick dur).view k = st.view k := by
  unfold updateBounds OnsetState.view
  by_cases h1 : tick < QMap.value st.firstNonRest pid 0
  · by_cases h2 : wrapInt (tick + dur) > QMap.value st.lastNonRest pid 0 <;>
      simp [h1, h2, QMap.value_insert_ne _ _ _ _ _ h]
  · by_cases h2 : wrapInt (tick + dur) > QMap.value st.lastNonRest pid 0 <;>
      simp [h1, h2, QMap.value_insert_ne _ _ _ _ _ h]

theorem ponsets_updateBounds (st : OnsetState) (pid : String) (tick dur : Int) :
    (updateBounds st pid tick dur).ponsets = st.ponsets := by
  unfold updateBounds
  by_cases h1 : tick < QMap.value st.firstNonRest pid 0
  · by_cases h2 : wrapInt (tick + dur) > QMap.value st.lastNonRest pid 0 <;> simp [h1, h2]
  · by_cases h2 : wrapInt (tick + dur) > QMap.value st.lastNonRest pid 0 <;> simp [h1, h2]

theorem mergeOnset_none_iff (st : OnsetState) (pid : String) (tick : Int) (r : Bool) :
    mergeOnset st pid tick r = none ↔ accMerge (st.view pid) tick r = none := by
  unfold mergeOnset accMerge OnsetState.view
  by_cases h1 : tick > QMap.value st.plt pid 0
  · simp [h1]
  · by_cases h2 : tick = QMap.value st.plt pid 0
    · cases h3 : (QMap.value st.pisrest pid []).getLast? <;> simp [h1, h2, h3]
    · simp [h1, h2]

theorem mergeOnset_some (st st2 : OnsetState) (pid : String) (tick : Int) (r : Bool)
    (h : mergeOnset st pid tick r = some st2) :
    accMerge (st.view pid) tick r = some (st2.view pid) ∧
    (∀ k, k ≠ pid → st2.view k = st.view k) ∧
    (∀ k, k ∈ QMap.keys st.ponsets → k ∈ QMap.keys st2.ponsets) := by
  unfold mergeOnset at h
  unfold accMerge OnsetState.view
  by_cases h1 : tick > QMap.value st.plt pid 0
  · simp only [h1, if_true, Option.some.injEq] at h
    subst h
    refine ⟨by simp [h1, QMap.value_insert_self], ?_, ?_⟩
    · intro k hk
      simp [QMap.value_insert_ne _ _ _ _ _ hk]
    · intro k hk
      exact (QMap.mem_keys_insert _ _ _ _).2 (Or.inr hk)
  · by_cases h2 : tick = QMap.value st.plt pid 0
    · cases h3 : (QMap.value st.pisrest pid []).getLast? with
      | none => simp [h1, h2, h3] at h
      | some b =>
        have h4 : ¬ QMap.value st.plt pid 0 > QMap.value st.plt pid 0 := lt_irrefl _
        simp only [h2, h4, h3, if_true, if_false, Option.some.injEq] at h
        subst h
        refine ⟨by simp [h2, h3, QMap.value_insert_self], ?_, ?_⟩
        · intro k hk
          simp [QMap.value_insert_ne _ _ _ _ _ hk]
        · intro k hk
          exact hk
    · simp only [h1, h2, if_false, Option.some.injEq] at h
      subst h
      exact ⟨by simp [h1, h2], fun _ _ => rfl, fun _ hk => hk⟩

theorem processElem_some (st st2 : OnsetState) (e : Element) (h : processElem st e = some st2)
    (k : String) :
    (∀ ev, eventOf k e = some ev → accStep (st.view k) ev = some (st2.view k)) ∧
    (eventOf k e = none → st2.view k = st.view k) ∧
    (k ∈ QMap.keys st.ponsets → k ∈ QMap.keys st2.ponsets) := by
  cases e with
  | other =>
    simp only [processElem, Option.some.injEq] at h
    subst h
    simp [eventOf]
  | rest part tick dur =>
    simp only [processElem] at h
    obtain ⟨h1, h2, h3⟩ := mergeOnset_some _ _ _ _ _ h
    by_cases hk : part.id = k
    · subst hk
      refine ⟨?_, by simp [eventOf], h3 _⟩
      intro ev hev
      simp only [eventOf, if_true, Option.some.injEq] at hev
      subst hev
      simpa [accStep] using h1
    · have hk2 : k ≠ part.id := fun hh => hk hh.symm
      exact ⟨by simp [eventOf, hk], fun _ => h2 k hk2, h3 _⟩
  | note part tick pitch dur =>
    simp only [processElem] at h
    obtain ⟨h1, h2, h3⟩ := mergeOnset_some _ _ _ _ _ h
    rw [ponsets_updateBounds] at h3
    by_cases hk : part.id = k
    · subst hk
      refine ⟨?_, by simp [eventOf], h3 _⟩
      intro ev hev
      simp only [eventOf, if_true, Option.some.injEq] at hev
      subst hev
      rw [view_updateBounds_self] at h1
      simpa [accStep] using h1
    · have hk2 : k ≠ part.id := fun hh => hk hh.symm
      refine ⟨by simp [eventOf, hk], fun _ => ?_, h3 _⟩
      rw [h2 k hk2, view_updateBounds_ne _ _ _ _ _ hk2]

theorem processElem_none (st : OnsetState) (e : Element) (h : processElem st e = none) :
    ∃ k ev, eventOf k e = some ev ∧ accStep (st.view k) ev = none := by
  cases e with
  | other => simp [processElem] at h
  | rest part tick dur =>
    simp only [processElem] at h
    refine ⟨part.id, ⟨tick, true, dur⟩, by simp [eventOf], ?_⟩
    simpa [accStep] using (mergeOnset_none_iff _ _ _ _).1 h
  | note part tick pitch dur =>
    simp only [processElem] at h
    refine ⟨part.id, ⟨tick, false, dur⟩, by simp [eventOf], ?_⟩
    have h2 := (mergeOnset_none_iff _ _ _ _).1 h
    rw [view_updateBounds_self] at h2
    simpa [accStep] using h2

theorem partEvents_cons (k : String) (e : Element) (es : List Element) :
    partEvents k (e :: es) =
      match eventOf k e with
      | some ev => ev :: partEvents k es
      | none => partEvents k es := by
  unfold partEvents
  rw [List.filterMap_cons]
  cases eventOf k e <;> rfl

/-- Whenever the aggregation loop finishes, the values it holds for a part id
are those obtained by running the loop body on the events of that part only. -/
theorem foldlM_processElem_some (elems : List Element) :
    ∀ st st2 : OnsetState, elems.foldlM processElem st = some st2 →
      ∀ k, ((partEvents k elems).foldlM accStep (st.view k) = some (st2.view k)) ∧
        (k ∈ QMap.keys st.ponsets → k ∈ QMap.keys st2.ponsets) := by
  induction elems with
  | nil =>
    intro st st2 h k
    simp only [List.foldlM_nil, pure, Option.some.injEq] at h
    subst h
    exact ⟨by simp [partEvents, pure], fun hk => hk⟩
  | cons e es ih =>
    intro st st2 h k
    rw [List.foldlM_cons] at h
    cases h1 : processElem st e with
    | none => simp [h1, bind] at h
    | some st1 =>
      simp only [h1, bind, Option.bind] at h
      obtain ⟨ha, hb, hc⟩ := processElem_some st st1 e h1 k
      obtain ⟨hd, he⟩ := ih st1 st2 h k
      refine ⟨?_, fun hk => he (hc hk)⟩
      rw [partEvents_cons]
      cases h2 : eventOf k e with
      | none =>
        simp only []
        rw [← hb h2]
        exact hd
      | some ev =>
        simp only [List.foldlM_cons, ha ev h2, bind, Option.bind]
        exact hd

/-- The aggregation loop finishes when the loop body, run on the events of each
part id separately, finishes. -/
theorem foldlM_processElem_ne_none (elems : List Element) :
    ∀ st : OnsetState,
      (∀ k, (partEvents k elems).foldlM accStep (st.view k) ≠ none) →
      elems.foldlM processElem st ≠ none := by
  induction elems with
  | nil => intro st _; simp [pure]
  | cons e es ih =>
    intro st hall
    rw [List.foldlM_cons]
    cases h1 : processElem st e with
    | none =>
      exfalso
      obtain ⟨k, ev, hev, hstep⟩ := processElem_none st e h1
      have := hall k
      rw [partEvents_cons, hev] at this
      simp [List.foldlM_cons, hstep, bind] at this
    | some st1 =>
      simp only [bind, Option.bind]
      apply ih st1
      intro k
      obtain ⟨ha, hb, _⟩ := processElem_some st st1 e h1 k
      have := hall k
      rw [partEvents_cons] at this
      cases h2 : eventOf k e with
      | none =>
        rw [h2] at this
        rw [hb h2]
        exact this
      | some ev =>
        rw [h2] at this
        simpa [List.foldlM_cons, ha ev h2, bind] using this

/-! ## Initialisation and output loops -/

theorem view_initPart (F : Int) (st : OnsetState) (p : Part) (k : String) :
    (initPart F st p).view k = if p.id = k then ⟨-1, [], [], F, 0⟩ else st.view k := by
  unfold initPart OnsetState.view
  by_cases h : p.id = k
  · subst h
    simp [QMap.value_insert_self]
  · have h2 : k ≠ p.id := fun hh => h hh.symm
    simp [h, QMap.value_insert_ne _ _ _ _ _ h2]

theorem view_foldl_initPart (F : Int) (parts : List Part) (k : String) :
    ∀ st : OnsetState, (parts.foldl (initPart F) st).view k =
      if k ∈ parts.map Part.id then ⟨-1, [], [], F, 0⟩ else st.view k := by
  induction parts with
  | nil => intro st; simp
  | cons p ps ih =>
    intro st
    rw [List.foldl_cons, ih, view_initPart]
    by_cases h1 : k ∈ ps.map Part.id
    · simp [h1]
    · by_cases h2 : p.id = k
      · simp [h2]
      · have h3 : ¬ k = p.id := fun hh => h2 hh.symm
        simp [h1, h2, h3]

theorem view_init (F : Int) (parts : List Part) (k : String) :
    (parts.foldl (initPart F) OnsetState.empty).view k = initAcc F parts k := by
  rw [view_foldl_initPart]
  unfold initAcc
  by_cases h : k ∈ parts.map Part.id
  · simp [h]
  · simp only [h, if_false]
    rfl

theorem keys_foldl_initPart (F : Int) (parts : List Part) (k : String) :
    ∀ st : OnsetState, k ∈ parts.map Part.id →
      k ∈ QMap.keys (parts.foldl (initPart F) st).ponsets := by
  have mono : ∀ (ps : List Part) (st : OnsetState), k ∈ QMap.keys st.ponsets →
      k ∈ QMap.keys (ps.foldl (initPart F) st).ponsets := by
    intro ps
    induction ps with
    | nil => intro st h; exact h
    | cons p ps ih =>
      intro st h
      rw [List.foldl_cons]
      apply ih
      exact (QMap.mem_keys_insert _ _ _ _).2 (Or.inr h)
  induction parts with
  | nil => intro st h; simp at h
  | cons p ps ih =>
    intro st h
    rw [List.foldl_cons]
    by_cases h1 : k = p.id
    · apply mono
      exact (QMap.mem_keys_insert _ _ _ _).2 (Or.inl h1)
    · apply ih
      have h2 : k = p.id ∨ k ∈ ps.map Part.id := by simpa using h
      rcases h2 with h2 | h2
      · exact absurd h2 h1
      · exact h2

theorem outputLists_some {τ : Type} (f : Int → τ) (ons : List Int) :
    ∀ (isr : List Bool) (x : List Int × List τ × List Int),
      outputLists f ons isr = some x → x = (ons, ons.map f, nonrestOf ons isr) := by
  induction ons with
  | nil =>
    intro isr x h
    simp only [outputLists, Option.some.injEq] at h
    subst h
    simp [nonrestOf]
  | cons t ons ih =>
    intro isr x h
    cases isr with
    | nil => simp [outputLists] at h
    | cons r isr =>
      simp only [outputLists] at h
      cases h1 : outputLists f ons isr with
      | none => simp [h1] at h
      | some y =>
        have hy := ih isr y h1
        subst hy
        simp only [h1, Option.some.injEq] at h
        subst h
        cases r <;> simp [nonrestOf]

theorem outputLists_ne_none {τ : Type} (f : Int → τ) (ons : List Int) :
    ∀ isr : List Bool, ons.length ≤ isr.length → outputLists f ons isr ≠ none := by
  induction ons with
  | nil => intro isr _; simp [outputLists]
  | cons t ons ih =>
    intro isr h
    cases isr with
    | nil => simp at h
    | cons r isr =>
      have h2 : ons.length ≤ isr.length := by simpa using h
      have h3 := ih isr h2
      cases h1 : outputLists f ons isr with
      | none => exact absurd h1 h3
      | some y => simp [outputLists, h1]

theorem onsetObj_some {τ : Type} (f : Int → τ) (st : OnsetState) (key : String)
    (obj : OnsetObj τ) (h : onsetObj f st key = some obj) : obj = objOf f (st.view key) := by
  unfold onsetObj at h
  cases h1 : outputLists f (QMap.value st.ponsets key []) (QMap.value st.pisrest key []) with
  | none => simp [h1] at h
  | some x =>
    have hx := outputLists_some f _ _ x h1
    subst hx
    simp only [h1, Option.some.injEq] at h
    subst h
    rfl

theorem onsetObj_ne_none {τ : Type} (f : Int → τ) (st : OnsetState) (key : String)
    (h : (st.view key).onsets.length ≤ (st.view key).isrest.length) :
    onsetObj f st key ≠ none := by
  unfold onsetObj
  have h2 := outputLists_ne_none f _ _ h
  cases h1 : outputLists f (QMap.value st.ponsets key []) (QMap.value st.pisrest key []) with
  | none => exact absurd h1 h2
  | some x => simp

theorem outputAll_some {τ : Type} (f : Int → τ) (st : OnsetState) (keys : List String) :
    ∀ out : QMap (OnsetObj τ), outputAll f st keys = some out →
      (∀ key ∈ keys, ∃ obj, QMap.find? out key = some obj) ∧
      (∀ key obj, QMap.find? out key = some obj → obj = objOf f (st.view key)) := by
  induction keys with
  | nil =>
    intro out h
    simp only [outputAll, Option.some.injEq] at h
    subst h
    simp [QMap.empty, QMap.find?]
  | cons k ks ih =>
    intro out h
    unfold outputAll at h
    cases h1 : onsetObj f st k with
    | none => simp [h1] at h
    | some o =>
      cases h2 : outputAll f st ks with
      | none => simp [h1, h2] at h
      | some rest =>
        simp only [h1, h2, Option.some.injEq] at h
        subst h
        obtain ⟨ha, hb⟩ := ih rest h2
        constructor
        · intro key hkey
          by_cases hk : k = key
          · exact ⟨o, by simp [QMap.find?, hk]⟩
          · have hkey2 : key = k ∨ key ∈ ks := by simpa using hkey
            rcases hkey2 with hkey2 | hkey2
            · exact absurd hkey2.symm hk
            · obtain ⟨obj, hobj⟩ := ha key hkey2
              exact ⟨obj, by simp [QMap.find?, hk, hobj]⟩
        · intro key obj hfind
          by_cases hk : k = key
          · subst hk
            simp only [QMap.find?, if_true, Option.some.injEq] at hfind
            subst hfind
            exact onsetObj_some f st k o h1
          · simp only [QMap.find?, hk, if_false] at hfind
            exact hb key obj hfind

theorem outputAll_ne_none {τ : Type} (f : Int → τ) (st : OnsetState) (keys : List String)
    (h : ∀ key, (st.view key).onsets.length ≤ (st.view key).isrest.length) :
    outputAll f st keys ≠ none := by
  induction keys with
  | nil => simp [outputAll]
  | cons k ks ih =>
    unfold outputAll
    have h1 := onsetObj_ne_none f st k (h k)
    cases h2 : onsetObj f st k with
    | none => exact absurd h2 h1
    | some o =>
      cases h3 : outputAll f st ks with
      | none => exact absurd h3 ih
      | some rest => simp

/-- Whenever `getPartsOnsets` returns, `final_tick` and the five maps exist,
every listed part has a member in the result, and every member is built from
the values obtained by running the loop body on the events of its part. -/
theorem getPartsOnsets_some {τ : Type} (f : Int → τ) (score : Score) (out : QMap (OnsetObj τ))
    (h : getPartsOnsets f score = some out) :
    ∃ F st, finalTick score = some F ∧ aggregate score = some st ∧
      (∀ p ∈ score.parts, ∃ obj, QMap.find? out p.id = some obj) ∧
      (∀ key obj, QMap.find? out key = some obj →
        accRun (initAcc F score.parts key) (partEvents key score.elems) = some (st.view key) ∧
        obj = objOf f (st.view key)) := by
  unfold getPartsOnsets at h
  cases hagg : aggregate score with
  | none => simp [hagg] at h
  | some st =>
    simp only [hagg] at h
    have hagg2 := hagg
    unfold aggregate at hagg2
    cases hF : finalTick score with
    | none => simp [hF] at hagg2
    | some F =>
      simp only [hF] at hagg2
      obtain ⟨ha, hb⟩ := outputAll_some f st _ out h
      refine ⟨F, st, rfl, rfl, ?_, ?_⟩
      · intro p hp
        apply ha
        apply (foldlM_processElem_some _ _ _ hagg2 p.id).2
        apply keys_foldl_initPart
        exact List.mem_map_of_mem _ hp
      · intro key obj hfind
        refine ⟨?_, hb key obj hfind⟩
        have := (foldlM_processElem_some _ _ _ hagg2 key).1
        rw [view_init] at this
        exact this

/-! ## The loop body on the values of one part -/

theorem accBounds_plt (a : PartAcc) (tick dur : Int) : (accBounds a tick dur).plt = a.plt := by
  unfold accBounds
  by_cases h1 : tick < a.first <;> by_cases h2 : wrapInt (tick + dur) > a.last <;> simp [h1, h2]

theorem accBounds_onsets (a : PartAcc) (tick dur : Int) :
    (accBounds a tick dur).onsets = a.onsets := by
  unfold accBounds
  by_cases h1 : tick < a.first <;> by_cases h2 : wrapInt (tick + dur) > a.last <;> simp [h1, h2]

theorem accBounds_isrest (a : PartAcc) (tick dur : Int) :
    (accBounds a tick dur).isrest = a.isrest := by
  unfold accBounds
  by_cases h1 : tick < a.first <;> by_cases h2 : wrapInt (tick + dur) > a.last <;> simp [h1, h2]

theorem accBounds_first (a : PartAcc) (tick dur : Int) :
    (accBounds a tick dur).first ≤ a.first ∧ (accBounds a tick dur).first ≤ tick ∧
    ((accBounds a tick dur).first = a.first ∨ (accBounds a tick dur).first = tick) := by
  unfold accBounds
  by_cases h1 : tick < a.first <;> by_cases h2 : wrapInt (tick + dur) > a.last <;>
    simp [h1, h2] <;> omega

theorem accBounds_last (a : PartAcc) (tick dur : Int) :
    a.last ≤ (accBounds a tick dur).last ∧ wrapInt (tick + dur) ≤ (accBounds a tick dur).last ∧
    ((accBounds a tick dur).last = a.last ∨ (accBounds a tick dur).last = wrapInt (tick + dur)) := by
  unfold accBounds
  by_cases h1 : tick < a.first <;> by_cases h2 : wrapInt (tick + dur) > a.last <;>
    simp [h1, h2] <;> omega

theorem accMerge_first_last (a a2 : PartAcc) (tick : Int) (r : Bool)
    (h : accMerge a tick r = some a2) : a2.first = a.first ∧ a2.last = a.last := by
  unfold accMerge at h
  by_cases h1 : tick > a.plt
  · simp only [h1, if_true, Option.some.injEq] at h
    subst h
    exact ⟨rfl, rfl⟩
  · by_cases h2 : tick = a.plt
    · cases h3 : a.isrest.getLast? with
      | none => simp [h1, h2, h3] at h
      | some b =>
        have h4 : ¬ a.plt > a.plt := lt_irrefl _
        simp only [h2, h4, h3, if_true, if_false, Option.some.injEq] at h
        subst h
        exact ⟨rfl, rfl⟩
    · simp only [h1, h2, if_false, Option.some.injEq] at h
      subst h
      exact ⟨rfl, rfl⟩

theorem accMerge_safe (a : PartAcc) (tick : Int) (r : Bool) (hs : SafeAcc a) (ht : 0 ≤ tick) :
    ∃ a2, accMerge a tick r = some a2 ∧ SafeAcc a2 := by
  obtain ⟨hlen, hplt⟩ := hs
  unfold accMerge
  by_cases h1 : tick > a.plt
  · refine ⟨{ a with onsets := a.onsets ++ [tick], isrest := a.isrest ++ [r], plt := tick },
      by simp [h1], ?_⟩
    constructor
    · simp [hlen]
    · intro hnil
      simp at hnil
  · by_cases h2 : tick = a.plt
    · have hne : a.onsets ≠ [] := by
        intro hnil
        have := hplt hnil
        omega
      have hne2 : a.isrest ≠ [] := by
        intro hnil
        rw [hnil] at hlen
        exact hne (List.length_eq_zero.1 hlen.symm)
      cases h3 : a.isrest.getLast? with
      | none => exact absurd (List.getLast?_eq_none_iff.1 h3) hne2
      | some b =>
        have h4 : ¬ a.plt > a.plt := lt_irrefl _
        refine ⟨{ a with isrest := a.isrest.dropLast ++ [b && r] }, by simp [h2, h4], ?_⟩
        constructor
        · have hpos : 0 < a.isrest.length := List.length_pos.2 hne2
          simp only [List.length_append, List.length_dropLast, List.length_singleton]
          omega
        · intro hnil
          exact absurd hnil hne
    · exact ⟨a, by simp [h1, h2], hlen, hplt⟩

theorem accStep_safe (a : PartAcc) (ev : Ev) (hs : SafeAcc a) (ht : 0 ≤ ev.tick) :
    ∃ a2, accStep a ev = some a2 ∧ SafeAcc a2 := by
  unfold accStep
  by_cases hr : ev.isRest = true
  · simp only [hr, if_true]
    exact accMerge_safe a ev.tick true hs ht
  · simp only [hr]
    apply accMerge_safe _ ev.tick false _ ht
    unfold SafeAcc
    rw [accBounds_isrest, accBounds_onsets, accBounds_plt]
    exact hs

theorem accRun_safe (evs : List Ev) :
    ∀ a : PartAcc, SafeAcc a → (∀ ev ∈ evs, 0 ≤ ev.tick) →
      ∃ a2, accRun a evs = some a2 ∧ SafeAcc a2 := by
  induction evs with
  | nil => intro a hs _; exact ⟨a, by simp [accRun, pure], hs⟩
  | cons ev evs ih =>
    intro a hs ht
    obtain ⟨a1, h1, hs1⟩ := accStep_safe a ev hs (ht ev (by simp))
    obtain ⟨a2, h2, hs2⟩ := ih a1 hs1 (fun e he => ht e (by simp [he]))
    refine ⟨a2, ?_, hs2⟩
    unfold accRun at h2 ⊢
    simp [List.foldlM_cons, h1, h2, bind]

theorem accMerge_inc (a a2 : PartAcc) (tick : Int) (r : Bool) (hi : IncAcc a)
    (h : accMerge a tick r = some a2) : IncAcc a2 := by
  obtain ⟨hp, hb⟩ := hi
  unfold accMerge at h
  by_cases h1 : tick > a.plt
  · simp only [h1, if_true, Option.some.injEq] at h
    subst h
    constructor
    · simp only [List.pairwise_append]
      refine ⟨hp, by simp, ?_⟩
      intro x hx y hy
      have hy2 : y = tick := by simpa using hy
      have := hb x hx
      omega
    · intro x hx
      have hx2 : x ∈ a.onsets ∨ x = tick := by simpa using hx
      rcases hx2 with hx2 | hx2
      · have := hb x hx2
        simp only
        omega
      · simp only
        omega
  · by_cases h2 : tick = a.plt
    · cases h3 : a.isrest.getLast? with
      | none => simp [h1, h2, h3] at h
      | some b =>
        have h4 : ¬ a.plt > a.plt := lt_irrefl _
        simp only [h2, h4, h3, if_true, if_false, Option.some.injEq] at h
        subst h
        exact ⟨hp, hb⟩
    · simp only [h1, h2, if_false, Option.some.injEq] at h
      subst h
      exact ⟨hp, hb⟩

theorem accStep_inc (a a2 : PartAcc) (ev : Ev) (hi : IncAcc a)
    (h : accStep a ev = some a2) : IncAcc a2 := by
  unfold accStep at h
  by_cases hr : ev.isRest = true
  · simp only [hr, if_true] at h
    exact accMerge_inc a a2 ev.tick true hi h
  · simp only [hr] at h
    refine accMerge_inc _ a2 ev.tick false ?_ h
    unfold IncAcc
    rw [accBounds_onsets, accBounds_plt]
    exact hi

theorem accRun_inc (evs : List Ev) :
    ∀ a a2 : PartAcc, IncAcc a → accRun a evs = some a2 → IncAcc a2 := by
  induction evs with
  | nil =>
    intro a a2 hi h
    simp only [accRun, List.foldlM_nil, pure, Option.some.injEq] at h
    subst h
    exact hi
  | cons ev evs ih =>
    intro a a2 hi h
    unfold accRun at h
    rw [List.foldlM_cons] at h
    cases h1 : accStep a ev with
    | none => simp [h1, bind] at h
    | some a1 =>
      simp only [h1, bind, Option.bind] at h
      exact ih a1 a2 (accStep_inc a a1 ev hi h1) h

/-! ## `getPartsOnsets` returns -/

theorem partEvents_unlisted (score : Score) (hat : score.Attached) (k : String)
    (hk : k ∉ score.parts.map Part.id) : partEvents k score.elems = [] := by
  unfold partEvents
  rw [List.filterMap_eq_nil_iff]
  intro e he
  cases e with
  | other => rfl
  | rest part tick dur =>
    by_cases h : part.id = k
    · exact absurd (h ▸ hat _ he part rfl) hk
    · simp [eventOf, h]
  | note part tick pitch dur =>
    by_cases h : part.id = k
    · exact absurd (h ▸ hat _ he part rfl) hk
    · simp [eventOf, h]

theorem safeAcc_initAcc_listed (F : Int) (parts : List Part) (k : String)
    (hk : k ∈ parts.map Part.id) : SafeAcc (initAcc F parts k) := by
  unfold initAcc SafeAcc
  simp only [hk, if_true]
  exact ⟨rfl, fun _ => by decide⟩

/-- The per-part run finishes for every part id of a score whose events are
attached to listed parts and have non-negative ticks, and the two lists it
leaves have the same length. -/
theorem accRun_initAcc (score : Score) (F : Int) (hat : score.Attached)
    (hnn : score.NonNegTicks) (k : String) :
    ∃ a, accRun (initAcc F score.parts k) (partEvents k score.elems) = some a ∧
      a.isrest.length = a.onsets.length := by
  by_cases hk : k ∈ score.parts.map Part.id
  · obtain ⟨p, hp, hpk⟩ := List.mem_map.1 hk
    subst hpk
    obtain ⟨a, ha, hs⟩ := accRun_safe _ _ (safeAcc_initAcc_listed F score.parts p.id hk)
      (hnn p hp)
    exact ⟨a, ha, hs.1⟩
  · rw [partEvents_unlisted score hat k hk]
    refine ⟨initAcc F score.parts k, by simp [accRun, pure], ?_⟩
    simp [initAcc, hk]

/-- For a score with a last measure whose events are attached to listed parts
and have non-negative ticks, `getPartsOnsets` returns a result. -/
theorem getPartsOnsets_returns {τ : Type} (f : Int → τ) (score : Score)
    (hm : score.lastMeasure ≠ none) (hat : score.Attached) (hnn : score.NonNegTicks) :
    ∃ out, getPartsOnsets f score = some out := by
  cases hlm : score.lastMeasure with
  | none => exact absurd hlm hm
  | some lastm =>
    have hF : finalTick score = some (lastm.tick + lastm.ticks) := by simp [finalTick, hlm]
    have hagg : aggregate score ≠ none := by
      unfold aggregate
      simp only [hF]
      apply foldlM_processElem_ne_none
      intro k
      rw [view_init]
      obtain ⟨a, ha, _⟩ := accRun_initAcc score (lastm.tick + lastm.ticks) hat hnn k
      unfold accRun at ha
      simp [ha]
    cases hst : aggregate score with
    | none => exact absurd hst hagg
    | some st =>
      have hst2 := hst
      unfold aggregate at hst2
      simp only [hF] at hst2
      have hout : outputAll f st (QMap.keys st.ponsets) ≠ none := by
        apply outputAll_ne_none
        intro key
        have h1 := (foldlM_processElem_some _ _ _ hst2 key).1
        rw [view_init] at h1
        obtain ⟨a, ha, hlen⟩ := accRun_initAcc score (lastm.tick + lastm.ticks) hat hnn key
        unfold accRun at ha
        rw [ha] at h1
        simp only [Option.some.injEq] at h1
        rw [← h1]
        omega
      cases ho : outputAll f st (QMap.keys st.ponsets) with
      | none => exact absurd ho hout
      | some out => exact ⟨out, by simp [getPartsOnsets, hst, ho]⟩

theorem incAcc_initAcc (F : Int) (parts : List Part) (k : String) : IncAcc (initAcc F parts k) := by
  unfold initAcc IncAcc
  by_cases hk : k ∈ parts.map Part.id <;> simp [hk]

/-! ## Bounds kept for one part -/

theorem accStep_bounds (a a2 : PartAcc) (ev : Ev) (h : accStep a ev = some a2) :
    (ev.isRest = true → a2.first = a.first ∧ a2.last = a.last) ∧
    (ev.isRest = false →
      a2.first ≤ a.first ∧ a2.first ≤ ev.tick ∧ (a2.first = a.first ∨ a2.first = ev.tick) ∧
      a.last ≤ a2.last ∧ wrapInt (ev.tick + ev.dur) ≤ a2.last ∧
      (a2.last = a.last ∨ a2.last = wrapInt (ev.tick + ev.dur))) := by
  unfold accStep at h
  by_cases hr : ev.isRest = true
  · simp only [hr, if_true] at h
    exact ⟨fun _ => accMerge_first_last _ _ _ _ h, fun hf => by simp [hr] at hf⟩
  · simp only [hr] at h
    obtain ⟨h1, h2⟩ := accMerge_first_last _ _ _ _ h
    refine ⟨fun ht => absurd ht hr, fun _ => ?_⟩
    rw [h1, h2]
    obtain ⟨b1, b2, b3⟩ := accBounds_first a ev.tick ev.dur
    obtain ⟨b4, b5, b6⟩ := accBounds_last a ev.tick ev.dur
    exact ⟨b1, b2, b3, b4, b5, b6⟩

theorem accRun_cons (a : PartAcc) (ev : Ev) (evs : List Ev) :
    accRun a (ev :: evs) = (accStep a ev).bind fun a1 => accRun a1 evs := by
  unfold accRun
  rw [List.foldlM_cons]
  rfl

/-- After a run, `first` is the least of its start value and the ticks of the
notes met, and `last` the greatest of its start value and the ends
`tick + dur`, as an `int`, of the notes met. -/
theorem accRun_bounds (evs : List Ev) :
    ∀ a a2 : PartAcc, accRun a evs = some a2 →
      a2.first ≤ a.first ∧
      (∀ ev ∈ evs, ev.isRest = false → a2.first ≤ ev.tick) ∧
      (a2.first = a.first ∨ ∃ ev ∈ evs, ev.isRest = false ∧ a2.first = ev.tick) ∧
      a.last ≤ a2.last ∧
      (∀ ev ∈ evs, ev.isRest = false → wrapInt (ev.tick + ev.dur) ≤ a2.last) ∧
      (a2.last = a.last ∨ ∃ ev ∈ evs, ev.isRest = false ∧ a2.last = wrapInt (ev.tick + ev.dur)) := by
  induction evs with
  | nil =>
    intro a a2 h
    simp only [accRun, List.foldlM_nil, pure, Option.some.injEq] at h
    subst h
    simp
  | cons ev evs ih =>
    intro a a2 h
    rw [accRun_cons] at h
    cases h1 : accStep a ev with
    | none => simp [h1] at h
    | some a1 =>
      simp only [h1, Option.bind] at h
      obtain ⟨hrest, hnote⟩ := accStep_bounds a a1 ev h1
      obtain ⟨i1, i2, i3, i4, i5, i6⟩ := ih a1 a2 h
      by_cases hr : ev.isRest = true
      · obtain ⟨hf, hl⟩ := hrest hr
        rw [hf] at i1 i3
        rw [hl] at i4 i6
        refine ⟨i1, ?_, ?_, i4, ?_, ?_⟩
        · intro e he hne
          rcases List.mem_cons.1 he with he | he
          · subst he; simp [hr] at hne
          · exact i2 e he hne
        · rcases i3 with i3 | ⟨e, he, hne, hq⟩
          · exact Or.inl i3
          · exact Or.inr ⟨e, List.mem_cons_of_mem _ he, hne, hq⟩
        · intro e he hne
          rcases List.mem_cons.1 he with he | he
          · subst he; simp [hr] at hne
          · exact i5 e he hne
        · rcases i6 with i6 | ⟨e, he, hne, hq⟩
          · exact Or.inl i6
          · exact Or.inr ⟨e, List.mem_cons_of_mem _ he, hne, hq⟩
      · have hr2 : ev.isRest = false := by simpa using hr
        obtain ⟨n1, n2, n3, n4, n5, n6⟩ := hnote hr2
        refine ⟨by omega, ?_, ?_, by omega, ?_, ?_⟩
        · intro e he hne
          rcases List.mem_cons.1 he with he | he
          · rw [he]; omega
          · exact i2 e he hne
        · rcases i3 with i3 | ⟨e, he, hne, hq⟩
          · rcases n3 with n3 | n3
            · left; omega
            · right; exact ⟨ev, List.mem_cons_self _ _, hr2, by omega⟩
          · exact Or.inr ⟨e, List.mem_cons_of_mem _ he, hne, hq⟩
        · intro e he hne
          rcases List.mem_cons.1 he with he | he
          · rw [he]; omega
          · exact i5 e he hne
        · rcases i6 with i6 | ⟨e, he, hne, hq⟩
          · rcases n6 with n6 | n6
            · left; omega
            · right; exact ⟨ev, List.mem_cons_self _ _, hr2, by omega⟩
          · exact Or.inr ⟨e, List.mem_cons_of_mem _ he, hne, hq⟩

theorem mem_partNotes (pid : String) (elems : List Element) (ev : Ev) :
    ev ∈ partNotes pid elems ↔ ev ∈ partEvents pid elems ∧ ev.isRest = false := by
  simp [partNotes, List.mem_filter]

/-! ## Merging the events of one part -/

theorem accMerge_push (a : PartAcc) (tick : Int) (r : Bool) (h : tick > a.plt) :
    accMerge a tick r =
      some { a with onsets := a.onsets ++ [tick], isrest := a.isrest ++ [r], plt := tick } := by
  unfold accMerge
  simp [h]

theorem accMerge_same (a : PartAcc) (tick : Int) (r : Bool) (h : tick = a.plt)
    (l : List Bool) (b : Bool) (hl : a.isrest = l ++ [b]) :
    accMerge a tick r = some { a with isrest := l ++ [b && r] } := by
  unfold accMerge
  have h4 : ¬ a.plt > a.plt := lt_irrefl _
  simp [h, h4, hl]

theorem accStep_push (a : PartAcc) (ev : Ev) (h : ev.tick > a.plt) :
    ∃ a2, accStep a ev = some a2 ∧ a2.plt = ev.tick ∧
      a2.onsets = a.onsets ++ [ev.tick] ∧ a2.isrest = a.isrest ++ [ev.isRest] := by
  unfold accStep
  by_cases hr : ev.isRest = true
  · simp only [hr, if_true]
    exact ⟨_, accMerge_push a ev.tick true h, rfl, rfl, rfl⟩
  · have hr2 : ev.isRest = false := by simpa using hr
    simp only [hr]
    have h2 : ev.tick > (accBounds a ev.tick ev.dur).plt := by rw [accBounds_plt]; exact h
    refine ⟨_, accMerge_push _ ev.tick false h2, rfl, ?_, ?_⟩
    · simp [accBounds_onsets]
    · simp [accBounds_isrest, hr2]

theorem accStep_same (a : PartAcc) (ev : Ev) (h : ev.tick = a.plt)
    (l : List Bool) (b : Bool) (hl : a.isrest = l ++ [b]) :
    ∃ a2, accStep a ev = some a2 ∧ a2.plt = a.plt ∧
      a2.onsets = a.onsets ∧ a2.isrest = l ++ [b && ev.isRest] := by
  unfold accStep
  by_cases hr : ev.isRest = true
  · simp only [hr, if_true]
    exact ⟨_, accMerge_same a ev.tick true h l b hl, rfl, rfl, rfl⟩
  · have hr2 : ev.isRest = false := by simpa using hr
    simp only [hr]
    have h2 : ev.tick = (accBounds a ev.tick ev.dur).plt := by rw [accBounds_plt]; exact h
    have hl2 : (accBounds a ev.tick ev.dur).isrest = l ++ [b] := by
      rw [accBounds_isrest]; exact hl
    refine ⟨_, accMerge_same _ ev.tick false h2 l b hl2, ?_, ?_, ?_⟩
    · simp [accBounds_plt]
    · simp [accBounds_onsets]
    · simp [hr2]

theorem accRun_append_singleton (a : PartAcc) (evs : List Ev) (e : Ev) :
    accRun a (evs ++ [e]) = (accRun a evs).bind fun a1 => accStep a1 e := by
  unfold accRun
  rw [List.foldlM_append]
  cases h : List.foldlM accStep a evs with
  | none => rfl
  | some a1 => simp [bind, List.foldlM_cons, pure]

theorem merged_push (evs : List Ev) (a a2 : PartAcc) (Z : List (Int × Bool)) (e : Ev)
    (hm : Merged evs a Z) (hgt : e.tick > a.plt) (hplt : a2.plt = e.tick)
    (hons : a2.onsets = a.onsets ++ [e.tick]) (hisr : a2.isrest = a.isrest ++ [e.isRest]) :
    Merged (evs ++ [e]) a2 (Z ++ [(e.tick, e.isRest)]) := by
  obtain ⟨m1, m2, m3, m4, m5, _, m7⟩ := hm
  have hlt : ∀ t, t ∈ Z.map Prod.fst → t < e.tick := by
    intro t ht
    obtain ⟨ev, hev, htick⟩ := (m4 t).1 ht
    have := m7 ev hev
    omega
  refine ⟨?_, ?_, ?_, ?_, ?_, ?_, ?_⟩
  · rw [hons, m1]; simp
  · rw [hisr, m2]; simp
  · rw [List.map_append, List.pairwise_append]
    refine ⟨m3, by simp, ?_⟩
    intro x hx y hy
    have hy2 : y = e.tick := by simpa using hy
    rw [hy2]
    exact hlt x hx
  · intro t
    rw [List.map_append, List.mem_append]
    constructor
    · rintro (ht | ht)
      · obtain ⟨ev, hev, htick⟩ := (m4 t).1 ht
        exact ⟨ev, List.mem_append_left _ hev, htick⟩
      · have ht2 : t = e.tick := by simpa using ht
        exact ⟨e, by simp, ht2.symm⟩
    · rintro ⟨ev, hev, htick⟩
      rcases List.mem_append.1 hev with hev | hev
      · exact Or.inl ((m4 t).2 ⟨ev, hev, htick⟩)
      · have : ev = e := by simpa using hev
        subst this
        right
        simp [htick]
  · intro t b htb
    rcases List.mem_append.1 htb with htb | htb
    · have ht : t ∈ Z.map Prod.fst := List.mem_map.2 ⟨(t, b), htb, rfl⟩
      have hne := hlt t ht
      rw [m5 t b htb]
      constructor
      · intro h ev hev htick
        rcases List.mem_append.1 hev with hev | hev
        · exact h ev hev htick
        · have : ev = e := by simpa using hev
          subst this
          omega
      · intro h ev hev htick
        exact h ev (List.mem_append_left _ hev) htick
    · have hpair : (t, b) = (e.tick, e.isRest) := by simpa using htb
      obtain ⟨ht, hb⟩ := Prod.mk.inj hpair
      subst ht; subst hb
      constructor
      · intro h ev hev htick
        rcases List.mem_append.1 hev with hev | hev
        · have := m7 ev hev
          omega
        · have : ev = e := by simpa using hev
          subst this
          exact h
      · intro h
        exact h e (by simp) rfl
  · right
    exact ⟨Z, e.isRest, by rw [hplt]⟩
  · intro ev hev
    rw [hplt]
    rcases List.mem_append.1 hev with hev | hev
    · have := m7 ev hev
      omega
    · have : ev = e := by simpa using hev
      subst this
      exact le_refl _

theorem merged_same (evs : List Ev) (a a2 : PartAcc) (Z0 : List (Int × Bool)) (b : Bool)
    (e : Ev) (hm : Merged evs a (Z0 ++ [(a.plt, b)])) (heq : e.tick = a.plt)
    (hplt : a2.plt = a.plt) (hons : a2.onsets = a.onsets)
    (hisr : a2.isrest = Z0.map Prod.snd ++ [b && e.isRest]) :
    Merged (evs ++ [e]) a2 (Z0 ++ [(a2.plt, b && e.isRest)]) := by
  obtain ⟨m1, _, m3, m4, m5, _, m7⟩ := hm
  have hfst : (Z0 ++ [(a2.plt, b && e.isRest)]).map Prod.fst =
      (Z0 ++ [(a.plt, b)]).map Prod.fst := by
    simp [hplt]
  have hlt : ∀ t, t ∈ Z0.map Prod.fst → t < a.plt := by
    intro t ht
    rw [List.map_append, List.pairwise_append] at m3
    exact m3.2.2 t ht a.plt (by simp)
  refine ⟨?_, ?_, ?_, ?_, ?_, ?_, ?_⟩
  · rw [hons, m1, hfst]
  · rw [hisr]; simp
  · rw [hfst]; exact m3
  · intro t
    rw [hfst, m4 t]
    constructor
    · rintro ⟨ev, hev, htick⟩
      exact ⟨ev, List.mem_append_left _ hev, htick⟩
    · rintro ⟨ev, hev, htick⟩
      rcases List.mem_append.1 hev with hev | hev
      · exact ⟨ev, hev, htick⟩
      · have : ev = e := by simpa using hev
        subst this
        apply (m4 t).1
        rw [← htick, heq]
        simp
  · intro t b2 htb
    rcases List.mem_append.1 htb with htb | htb
    · have ht : t ∈ Z0.map Prod.fst := List.mem_map.2 ⟨(t, b2), htb, rfl⟩
      have hne := hlt t ht
      rw [m5 t b2 (List.mem_append_left _ htb)]
      constructor
      · intro h ev hev htick
        rcases List.mem_append.1 hev with hev | hev
        · exact h ev hev htick
        · have : ev = e := by simpa using hev
          subst this
          omega
      · intro h ev hev htick
        exact h ev (List.mem_append_left _ hev) htick
    · have hpair : (t, b2) = (a2.plt, b && e.isRest) := by simpa using htb
      obtain ⟨ht, hb⟩ := Prod.mk.inj hpair
      subst ht; subst hb
      have hb0 := m5 a.plt b (by simp)
      rw [hplt]
      constructor
      · intro h ev hev htick
        have h2 : b = true ∧ e.isRest = true := by simpa using h
        rcases List.mem_append.1 hev with hev | hev
        · exact hb0.1 h2.1 ev hev htick
        · have : ev = e := by simpa using hev
          subst this
          exact h2.2
      · intro h
        have h1 : b = true := hb0.2 (fun ev hev htick => h ev (List.mem_append_left _ hev) htick)
        have h2 : e.isRest = true := h e (by simp) heq
        simp [h1, h2]
  · right
    exact ⟨Z0, b && e.isRest, rfl⟩
  · intro ev hev
    rw [hplt]
    rcases List.mem_append.1 hev with hev | hev
    · exact m7 ev hev
    · have : ev = e := by simpa using hev
      subst this
      omega

/-- Run on the events of one part, with non-negative ticks in non-decreasing
order, from the values written by the initialisation loop: the run finishes and
its lists are the merged onsets of the events. -/
theorem accRun_merged (F : Int) (evs : List Ev) :
    (∀ ev ∈ evs, 0 ≤ ev.tick) → (evs.map Ev.tick).Pairwise (· ≤ ·) →
    ∃ a Z, accRun ⟨-1, [], [], F, 0⟩ evs = some a ∧ Merged evs a Z := by
  induction evs using List.reverseRecOn with
  | nil =>
    intro _ _
    refine ⟨⟨-1, [], [], F, 0⟩, [], by simp [accRun, pure], ?_⟩
    unfold Merged
    simp
  | append_singleton evs e ih =>
    intro hnn hsorted
    have hnn1 : ∀ ev ∈ evs, 0 ≤ ev.tick := fun ev hev => hnn ev (List.mem_append_left _ hev)
    have he0 : 0 ≤ e.tick := hnn e (by simp)
    rw [List.map_append, List.pairwise_append] at hsorted
    obtain ⟨hs1, _, hs3⟩ := hsorted
    have hle : ∀ ev ∈ evs, ev.tick ≤ e.tick := by
      intro ev hev
      exact hs3 ev.tick (List.mem_map_of_mem _ hev) e.tick (by simp)
    obtain ⟨a, Z, hrun, hm⟩ := ih hnn1 hs1
    rw [accRun_append_singleton, hrun]
    simp only [Option.bind]
    have hm0 := hm
    obtain ⟨m1, m2, m3, m4, m5, m6, m7⟩ := hm
    have hge : a.plt ≤ e.tick := by
      rcases m6 with ⟨_, hp⟩ | ⟨Z0, b, hZ⟩
      · omega
      · obtain ⟨ev, hev, htick⟩ := (m4 a.plt).1 (by rw [hZ]; simp)
        have := hle ev hev
        omega
    by_cases hgt : e.tick > a.plt
    · obtain ⟨a2, hstep, h1, h2, h3⟩ := accStep_push a e hgt
      exact ⟨a2, Z ++ [(e.tick, e.isRest)], hstep, merged_push evs a a2 Z e hm0 hgt h1 h2 h3⟩
    · have heq : e.tick = a.plt := by omega
      rcases m6 with ⟨_, hp⟩ | ⟨Z0, b, hZ⟩
      · omega
      · subst hZ
        have hl : a.isrest = Z0.map Prod.snd ++ [b] := by rw [m2]; simp
        obtain ⟨a2, hstep, h1, h2, h3⟩ := accStep_same a e heq _ b hl
        exact ⟨a2, Z0 ++ [(a2.plt, b && e.isRest)], hstep,
          merged_same evs a a2 Z0 b e hm0 heq h1 h2 h3⟩

theorem zip_map_fst_snd (Z : List (Int × Bool)) :
    (Z.map Prod.fst).zip (Z.map Prod.snd) = Z := by
  induction Z with
  | nil => rfl
  | cons x Z ih => simp [ih]

/-! ## Properties of `getPartsOnsets` -/

theorem getPartsOnsets_wellFormed {τ : Type} (f : Int → τ) (score : Score)
    (h : score.WellFormed) : ∃ out, getPartsOnsets f score = some out :=
  getPartsOnsets_returns f score h.1 h.2.1 h.2.2

theorem mergeOnset_bounds_maps (st st2 : OnsetState) (pid : String) (tick : Int) (r : Bool)
    (h : mergeOnset st pid tick r = some st2) :
    st2.firstNonRest = st.firstNonRest ∧ st2.lastNonRest = st.lastNonRest := by
  unfold mergeOnset at h
  by_cases h1 : tick > QMap.value st.plt pid 0
  · simp only [h1, if_true, Option.some.injEq] at h
    subst h
    exact ⟨rfl, rfl⟩
  · by_cases h2 : tick = QMap.value st.plt pid 0
    · cases h3 : (QMap.value st.pisrest pid []).getLast? with
      | none => simp [h1, h2, h3] at h
      | some b =>
        have h4 : ¬ QMap.value st.plt pid 0 > QMap.value st.plt pid 0 := lt_irrefl _
        simp only [h2, h4, h3, if_true, if_false, Option.some.injEq] at h
        subst h
        exact ⟨rfl, rfl⟩
    · simp only [h1, h2, if_false, Option.some.injEq] at h
      subst h
      exact ⟨rfl, rfl⟩

/-- Inside the range of an `int` the wrapped sum is the sum. -/
theorem wrapInt_of_range (x : Int) (h1 : INT_MIN ≤ x) (h2 : x ≤ INT_MAX) : wrapInt x = x := by
  unfold INT_MIN at h1
  unfold INT_MAX at h2
  unfold wrapInt
  omega

theorem initAcc_listed (F : Int) (parts : List Part) (p : Part) (hp : p ∈ parts) :
    initAcc F parts p.id = ⟨-1, [], [], F, 0⟩ := by
  unfold initAcc
  have : p.id ∈ parts.map Part.id := List.mem_map_of_mem _ hp
  simp [this]

theorem partNotes_eq_nil (pid : String) (elems : List Element)
    (h : partNotes pid elems = []) :
    ∀ ev ∈ partEvents pid elems, ev.isRest = false → False := by
  intro ev hev hr
  have : ev ∈ partNotes pid elems := (mem_partNotes _ _ _).2 ⟨hev, hr⟩
  rw [h] at this
  simp at this

theorem exDuo_wellFormed : exDuo.WellFormed := by
  refine ⟨by decide, ?_, ?_⟩
  · unfold Score.Attached; decide
  · unfold Score.NonNegTicks; decide

theorem exDuo_sortedTicks : exDuo.SortedTicks := by
  unfold Score.SortedTicks; decide

theorem exTrio_wellFormed : exTrio.WellFormed := by
  refine ⟨by decide, ?_, ?_⟩
  · unfold Score.Attached; decide
  · unfold Score.NonNegTicks; decide

theorem getPartsOnsets_exDuo : getPartsOnsets (fun t => t) exDuo = some exDuoOut := rfl

theorem getPartsOnsets_exTrio : getPartsOnsets (fun t => t) exTrio = some exTrioOut := rfl

/-- C5: whenever `getPartsOnsets` returns, for any traversal and any order of
the events, the `"ticks"` list of every member of the result is strictly
increasing and so holds no tick twice; and the function does return on every
well-formed score. -/
theorem getPartsOnsets_ticks_increasing {τ : Type} (f : Int → τ) (score : Score) :
    (score.WellFormed → ∃ out, getPartsOnsets f score = some out) ∧
    ∀ out, getPartsOnsets f score = some out →
      ∀ key obj, QMap.find? out key = some obj →
        obj.ticks.Pairwise (· < ·) ∧ obj.ticks.Nodup := by
  refine ⟨getPartsOnsets_wellFormed f score, ?_⟩
  intro out hout key obj hfind
  obtain ⟨F, st, _, _, _, hmem⟩ := getPartsOnsets_some f score out hout
  obtain ⟨hrun, hobj⟩ := hmem key obj hfind
  have hinc := accRun_inc _ _ _ (incAcc_initAcc F score.parts key) hrun
  subst hobj
  refine ⟨hinc.1, ?_⟩
  exact List.Pairwise.imp (fun h => ne_of_lt h) hinc.1

theorem getPartsOnsets_ticks_increasing_witness :
    (∃ out, getPartsOnsets (fun t => t) exDuo = some out) ∧
    getPartsOnsets (fun t => t) exDuo = some exDuoOut ∧
    QMap.find? exDuoOut "1" = some exObjA ∧
    exObjA.ticks.Pairwise (· < ·) ∧ exObjA.ticks.Nodup :=
  ⟨(getPartsOnsets_ticks_increasing (fun t => t) exDuo).1 exDuo_wellFormed,
    getPartsOnsets_exDuo, rfl,
    (getPartsOnsets_ticks_increasing (fun t => t) exDuo).2 exDuoOut getPartsOnsets_exDuo
      "1" exObjA rfl⟩

/-- C6: on a well-formed score in which the events of every listed part come
in non-decreasing tick order, `getPartsOnsets` returns, and for every listed
part: the onset ticks are strictly increasing and are exactly the ticks at
which the part has an event (one entry per distinct tick); the flag list runs
parallel to them, and the flag of a tick is true exactly when every event of
the part at that tick is a rest; `"nonrest_ticks"` lists the ticks whose flag
is false, in order. -/
theorem getPartsOnsets_onsets {τ : Type} (f : Int → τ) (score : Score)
    (hwf : score.WellFormed) (hsorted : score.SortedTicks) :
    ∃ st out, aggregate score = some st ∧ getPartsOnsets f score = some out ∧
      ∀ p ∈ score.parts, ∃ obj, QMap.find? out p.id = some obj ∧
        obj.ticks = QMap.value st.ponsets p.id [] ∧
        (QMap.value st.pisrest p.id []).length = obj.ticks.length ∧
        obj.ticks.Pairwise (· < ·) ∧
        (∀ t, t ∈ obj.ticks ↔ ∃ ev ∈ partEvents p.id score.elems, ev.tick = t) ∧
        (∀ t b, (t, b) ∈ obj.ticks.zip (QMap.value st.pisrest p.id []) →
          (b = true ↔ ∀ ev ∈ partEvents p.id score.elems, ev.tick = t → ev.isRest = true)) ∧
        obj.nonrest_ticks = nonrestOf obj.ticks (QMap.value st.pisrest p.id []) := by
  obtain ⟨out, hout⟩ := getPartsOnsets_wellFormed f score hwf
  obtain ⟨F, st, _, hagg, hlisted, hmem⟩ := getPartsOnsets_some f score out hout
  refine ⟨st, out, hagg, hout, ?_⟩
  intro p hp
  obtain ⟨obj, hfind⟩ := hlisted p hp
  obtain ⟨hrun, hobj⟩ := hmem p.id obj hfind
  rw [initAcc_listed F score.parts p hp] at hrun
  obtain ⟨a, Z, hrun2, hm⟩ := accRun_merged F (partEvents p.id score.elems)
    (hwf.2.2 p hp) (hsorted p hp)
  rw [hrun] at hrun2
  have ha : st.view p.id = a := Option.some.inj hrun2
  obtain ⟨m1, m2, m3, m4, m5, _, _⟩ := hm
  have hons : QMap.value st.ponsets p.id [] = Z.map Prod.fst := by
    rw [← m1, ← ha]; rfl
  have hisr : QMap.value st.pisrest p.id [] = Z.map Prod.snd := by
    rw [← m2, ← ha]; rfl
  have hticks : obj.ticks = Z.map Prod.fst := by
    rw [hobj, ← hons]; rfl
  have hnr : obj.nonrest_ticks = nonrestOf (Z.map Prod.fst) (Z.map Prod.snd) := by
    rw [hobj, ← hons, ← hisr]; rfl
  refine ⟨obj, hfind, ?_, ?_, ?_, ?_, ?_, ?_⟩
  · rw [hticks, hons]
  · rw [hticks, hisr]; simp
  · rw [hticks]; exact m3
  · rw [hticks]; exact m4
  · rw [hticks, hisr, zip_map_fst_snd]; exact m5
  · rw [hnr, hticks, hisr]

theorem getPartsOnsets_onsets_witness :
    (∃ st out, aggregate exDuo = some st ∧ getPartsOnsets (fun t => t) exDuo = some out ∧
      ∀ p ∈ exDuo.parts, ∃ obj, QMap.find? out p.id = some obj ∧
        obj.ticks = QMap.value st.ponsets p.id [] ∧
        (QMap.value st.pisrest p.id []).length = obj.ticks.length ∧
        obj.ticks.Pairwise (· < ·) ∧
        (∀ t, t ∈ obj.ticks ↔ ∃ ev ∈ partEvents p.id exDuo.elems, ev.tick = t) ∧
        (∀ t b, (t, b) ∈ obj.ticks.zip (QMap.value st.pisrest p.id []) →
          (b = true ↔ ∀ ev ∈ partEvents p.id exDuo.elems, ev.tick = t → ev.isRest = true)) ∧
        obj.nonrest_ticks = nonrestOf obj.ticks (QMap.value st.pisrest p.id [])) ∧
    getPartsOnsets (fun t => t) exDuo = some exDuoOut ∧
    QMap.find? exDuoOut "1" = some exObjA ∧
    exObjA.ticks = [0, 480] ∧
    (aggregate exDuo).map (fun st => QMap.value st.pisrest "1" []) = some [false, true] ∧
    exObjA.nonrest_ticks = [0] :=
  ⟨getPartsOnsets_onsets (fun t => t) exDuo exDuo_wellFormed exDuo_sortedTicks,
    rfl, rfl, rfl, rfl, rfl⟩

/-- C7 as stated fails: the part of `exLong` has the single note at tick 1
with duration 2147483647, inside `[0, final_tick] = [0, 960]` and with a
non-negative duration; the `int` sum `tick+dur` wraps to `-2147483648`, the
test against `lastNonRest` fails, and `end_tick` is 0, which is neither
`tick + dur` nor the wrapped sum. -/
theorem getPartsOnsets_end_tick_wraps :
    finalTick exLong = some 960 ∧
    partNotes "1" exLong.elems = [⟨1, false, 2147483647⟩] ∧
    (∀ ev ∈ partNotes "1" exLong.elems, 0 ≤ ev.tick ∧ ev.tick ≤ 960 ∧ 0 ≤ ev.dur) ∧
    getPartsOnsets (fun t => t) exLong = some [("1", exObjLong)] ∧
    exObjLong.beg_tick = 1 ∧ exObjLong.end_tick = 0 ∧
    wrapInt (1 + 2147483647) = -2147483648 ∧
    ¬ (∃ ev ∈ partNotes "1" exLong.elems, exObjLong.end_tick = ev.tick + ev.dur) ∧
    ¬ (∃ ev ∈ partNotes "1" exLong.elems, exObjLong.end_tick = wrapInt (ev.tick + ev.dur)) := by
  refine ⟨rfl, rfl, by decide, rfl, rfl, rfl, rfl, by decide, by decide⟩

/-- C7, amended: for a listed part with at least one note, all of whose notes
have a tick in `[0, final_tick]`, a non-negative duration and a sum
`tick + dur` of at most `INT_MAX`, `beg_tick` is the least tick of the notes of
the part and `end_tick` the greatest `tick + dur` of its notes; the statement
that handles a rest leaves both bound maps as they are; and the function
returns on every well-formed score. -/
theorem getPartsOnsets_bounds_of_notes {τ : Type} (f : Int → τ) (score : Score) :
    (score.WellFormed → ∃ out, getPartsOnsets f score = some out) ∧
    (∀ out, getPartsOnsets f score = some out →
      ∀ p ∈ score.parts, ∀ F, finalTick score = some F →
        partNotes p.id score.elems ≠ [] →
        (∀ ev ∈ partNotes p.id score.elems,
          0 ≤ ev.tick ∧ ev.tick ≤ F ∧ 0 ≤ ev.dur ∧ ev.tick + ev.dur ≤ INT_MAX) →
        ∃ obj, QMap.find? out p.id = some obj ∧
          (∃ ev ∈ partNotes p.id score.elems, obj.beg_tick = ev.tick) ∧
          (∀ ev ∈ partNotes p.id score.elems, obj.beg_tick ≤ ev.tick) ∧
          (∃ ev ∈ partNotes p.id score.elems, obj.end_tick = ev.tick + ev.dur) ∧
          (∀ ev ∈ partNotes p.id score.elems, ev.tick + ev.dur ≤ obj.end_tick)) ∧
    (∀ (st st2 : OnsetState) (part : Part) (tick dur : Int),
      processElem st (.rest part tick dur) = some st2 →
        st2.firstNonRest = st.firstNonRest ∧ st2.lastNonRest = st.lastNonRest) := by
  refine ⟨getPartsOnsets_wellFormed f score, ?_, ?_⟩
  · intro out hout p hp F hF hne hnotes
    obtain ⟨F2, st, hF2, _, hlisted, hmem⟩ := getPartsOnsets_some f score out hout
    rw [hF] at hF2
    simp only [Option.some.injEq] at hF2
    subst hF2
    obtain ⟨obj, hfind⟩ := hlisted p hp
    obtain ⟨hrun, hobj⟩ := hmem p.id obj hfind
    rw [initAcc_listed F score.parts p hp] at hrun
    obtain ⟨b1, b2, b3, b4, b5, b6⟩ := accRun_bounds _ _ _ hrun
    simp only at b1 b3 b4 b6
    have hw : ∀ ev ∈ partNotes p.id score.elems, wrapInt (ev.tick + ev.dur) = ev.tick + ev.dur := by
      intro ev hev
      obtain ⟨c1, _, c3, c4⟩ := hnotes ev hev
      exact wrapInt_of_range _ (by unfold INT_MIN; omega) c4
    obtain ⟨n, hn⟩ := List.exists_mem_of_ne_nil _ hne
    have hn2 := (mem_partNotes _ _ _).1 hn
    obtain ⟨c1, c2, c3, _⟩ := hnotes n hn
    have e2 := b2 n hn2.1 hn2.2
    have e5 := b5 n hn2.1 hn2.2
    rw [hw n hn] at e5
    refine ⟨obj, hfind, ?_, ?_, ?_, ?_⟩
    · subst hobj
      rcases b3 with b3 | ⟨ev, he, hr, hq⟩
      · exact ⟨n, hn, by simp only [objOf]; omega⟩
      · exact ⟨ev, (mem_partNotes _ _ _).2 ⟨he, hr⟩, hq⟩
    · subst hobj
      intro ev hev
      have := (mem_partNotes _ _ _).1 hev
      exact b2 ev this.1 this.2
    · subst hobj
      rcases b6 with b6 | ⟨ev, he, hr, hq⟩
      · exact ⟨n, hn, by simp only [objOf]; omega⟩
      · have hev : ev ∈ partNotes p.id score.elems := (mem_partNotes _ _ _).2 ⟨he, hr⟩
        rw [hw ev hev] at hq
        exact ⟨ev, hev, hq⟩
    · subst hobj
      intro ev hev
      have := (mem_partNotes _ _ _).1 hev
      have h5 := b5 ev this.1 this.2
      rw [hw ev hev] at h5
      exact h5
  · intro st st2 part tick dur h
    exact mergeOnset_bounds_maps st st2 part.id tick true h

theorem getPartsOnsets_bounds_of_notes_witness :
    (∃ out, getPartsOnsets (fun t => t) exDuo = some out) ∧
    getPartsOnsets (fun t => t) exDuo = some exDuoOut ∧
    QMap.find? exDuoOut "1" = some exObjA ∧
    exObjA.beg_tick = 0 ∧ exObjA.end_tick = 480 ∧
    (∃ ev ∈ partNotes "1" exDuo.elems, exObjA.beg_tick = ev.tick) ∧
    (∀ ev ∈ partNotes "1" exDuo.elems, exObjA.beg_tick ≤ ev.tick) ∧
    (∃ ev ∈ partNotes "1" exDuo.elems, exObjA.end_tick = ev.tick + ev.dur) ∧
    (∀ ev ∈ partNotes "1" exDuo.elems, ev.tick + ev.dur ≤ exObjA.end_tick) := by
  refine ⟨(getPartsOnsets_bounds_of_notes (fun t => t) exDuo).1 exDuo_wellFormed,
    getPartsOnsets_exDuo, rfl, rfl, rfl, ?_⟩
  obtain ⟨obj, hfind, h⟩ := (getPartsOnsets_bounds_of_notes (fun t => t) exDuo).2.1
    exDuoOut getPartsOnsets_exDuo exA (by decide) 960 (by decide) (by decide) (by decide)
  have hobj : obj = exObjA := by
    have h1 : QMap.find? exDuoOut exA.id = some exObjA := rfl
    rw [h1] at hfind
    exact (Option.some.inj hfind).symm
  subst hobj
  exact h

/-- C8 as stated fails: the part of `exLate` has the single note at tick
2147483647 with duration 1, in a score with final tick 960; the `int` sum
`tick+dur` wraps to a negative value, so `end_tick` stays 0 while `beg_tick`
stays 960. -/
theorem getPartsOnsets_beg_gt_end_wraps :
    finalTick exLate = some 960 ∧
    partNotes "1" exLate.elems = [⟨2147483647, false, 1⟩] ∧
    (∀ ev ∈ partNotes "1" exLate.elems, 0 ≤ ev.dur) ∧
    getPartsOnsets (fun t => t) exLate = some [("1", exObjLate)] ∧
    exObjLate.beg_tick = 960 ∧ exObjLate.end_tick = 0 ∧
    ¬ (exObjLate.beg_tick ≤ exObjLate.end_tick) := by
  refine ⟨rfl, rfl, by decide, rfl, rfl, rfl, by decide⟩

/-- C8, amended: whenever `getPartsOnsets` returns, for every member of the
result whose part has at least one note, the notes of the part having
non-negative durations and sums `tick + dur` inside the range of an `int`,
`beg_tick ≤ end_tick`, whatever the final tick and the order of the events; and
the function returns on every well-formed score. -/
theorem getPartsOnsets_beg_le_end {τ : Type} (f : Int → τ) (score : Score) :
    (score.WellFormed → ∃ out, getPartsOnsets f score = some out) ∧
    ∀ out, getPartsOnsets f score = some out →
      ∀ key obj, QMap.find? out key = some obj →
        partNotes key score.elems ≠ [] →
        (∀ ev ∈ partNotes key score.elems,
          0 ≤ ev.dur ∧ INT_MIN ≤ ev.tick + ev.dur ∧ ev.tick + ev.dur ≤ INT_MAX) →
        obj.beg_tick ≤ obj.end_tick := by
  refine ⟨getPartsOnsets_wellFormed f score, ?_⟩
  intro out hout key obj hfind hne hdur
  obtain ⟨F, st, _, _, _, hmem⟩ := getPartsOnsets_some f score out hout
  obtain ⟨hrun, hobj⟩ := hmem key obj hfind
  obtain ⟨_, b2, _, _, b5, _⟩ := accRun_bounds _ _ _ hrun
  obtain ⟨n, hn⟩ := List.exists_mem_of_ne_nil _ hne
  have hn2 := (mem_partNotes _ _ _).1 hn
  have e2 := b2 n hn2.1 hn2.2
  have e5 := b5 n hn2.1 hn2.2
  obtain ⟨e0, r1, r2⟩ := hdur n hn
  rw [wrapInt_of_range _ r1 r2] at e5
  subst hobj
  simp only [objOf]
  omega

theorem getPartsOnsets_beg_le_end_witness :
    (∃ out, getPartsOnsets (fun t => t) exDuo = some out) ∧
    getPartsOnsets (fun t => t) exDuo = some exDuoOut ∧
    QMap.find? exDuoOut "1" = some exObjA ∧
    partNotes "1" exDuo.elems ≠ [] ∧
    exObjA.beg_tick ≤ exObjA.end_tick :=
  ⟨(getPartsOnsets_beg_le_end (fun t => t) exDuo).1 exDuo_wellFormed,
    getPartsOnsets_exDuo, rfl, by decide,
    (getPartsOnsets_beg_le_end (fun t => t) exDuo).2 exDuoOut getPartsOnsets_exDuo
      "1" exObjA rfl (by decide) (by decide)⟩

/-- C9: whenever `getPartsOnsets` returns, the score has a last measure, and
with `final_tick` its start tick plus its length every listed part has a
member in the result; for a part without any note or rest event the lists
`"ticks"`, `"times"` and `"nonrest_ticks"` are empty and the bounds are
`(final_tick, 0)`; the bounds are `(final_tick, 0)` for every part without a
note; and the function returns on every well-formed score. -/
theorem getPartsOnsets_part_without_notes {τ : Type} (f : Int → τ) (score : Score) :
    (score.WellFormed → ∃ out, getPartsOnsets f score = some out) ∧
    ∀ out, getPartsOnsets f score = some out →
      ∃ lastm, score.lastMeasure = some lastm ∧
        ∀ p ∈ score.parts, ∃ obj, QMap.find? out p.id = some obj ∧
          (partEvents p.id score.elems = [] →
            obj.ticks = [] ∧ obj.times = [] ∧ obj.nonrest_ticks = [] ∧
            obj.beg_tick = lastm.tick + lastm.ticks ∧ obj.end_tick = 0) ∧
          (partNotes p.id score.elems = [] →
            obj.beg_tick = lastm.tick + lastm.ticks ∧ obj.end_tick = 0) := by
  refine ⟨getPartsOnsets_wellFormed f score, ?_⟩
  intro out hout
  obtain ⟨F, st, hF, _, hlisted, hmem⟩ := getPartsOnsets_some f score out hout
  cases hlm : score.lastMeasure with
  | none => simp [finalTick, hlm] at hF
  | some lastm =>
    have hF2 : F = lastm.tick + lastm.ticks := by
      simp only [finalTick, hlm, Option.map_some', Option.some.injEq] at hF
      exact hF.symm
    subst hF2
    refine ⟨lastm, rfl, ?_⟩
    intro p hp
    obtain ⟨obj, hfind⟩ := hlisted p hp
    obtain ⟨hrun, hobj⟩ := hmem p.id obj hfind
    rw [initAcc_listed _ score.parts p hp] at hrun
    refine ⟨obj, hfind, ?_, ?_⟩
    · intro hnil
      rw [hnil] at hrun
      simp only [accRun, List.foldlM_nil, pure, Option.some.injEq] at hrun
      subst hobj
      rw [← hrun]
      simp [objOf, nonrestOf]
    · intro hnil
      obtain ⟨_, _, b3, _, _, b6⟩ := accRun_bounds _ _ _ hrun
      have hno := partNotes_eq_nil _ _ hnil
      subst hobj
      constructor
      · rcases b3 with b3 | ⟨ev, he, hr, _⟩
        · exact b3
        · exact absurd hr (fun h => hno ev he h)
      · rcases b6 with b6 | ⟨ev, he, hr, _⟩
        · exact b6
        · exact absurd hr (fun h => hno ev he h)

theorem getPartsOnsets_part_without_notes_witness :
    (∃ out, getPartsOnsets (fun t => t) exTrio = some out) ∧
    getPartsOnsets (fun t => t) exTrio = some exTrioOut ∧
    partEvents "3" exTrio.elems = [] ∧ partNotes "2" exTrio.elems = [] ∧
    ∃ lastm, exTrio.lastMeasure = some lastm ∧
      (∃ obj, QMap.find? exTrioOut "3" = some obj ∧
        obj.ticks = [] ∧ obj.times = [] ∧ obj.nonrest_ticks = [] ∧
        obj.beg_tick = lastm.tick + lastm.ticks ∧ obj.end_tick = 0) ∧
      (∃ obj, QMap.find? exTrioOut "2" = some obj ∧
        obj.beg_tick = lastm.tick + lastm.ticks ∧ obj.end_tick = 0) := by
  refine ⟨(getPartsOnsets_part_without_notes (fun t => t) exTrio).1 exTrio_wellFormed,
    getPartsOnsets_exTrio, by decide, by decide, ?_⟩
  obtain ⟨lastm, hlm, h⟩ := (getPartsOnsets_part_without_notes (fun t => t) exTrio).2
    exTrioOut getPartsOnsets_exTrio
  obtain ⟨objC, hfindC, hC, _⟩ := h exC (by decide)
  obtain ⟨objB, hfindB, _, hB⟩ := h exB (by decide)
  exact ⟨lastm, hlm, ⟨objC, hfindC, hC (by decide)⟩, ⟨objB, hfindB, hB (by decide)⟩⟩

/-- C10 as stated fails on its own scenario: in the two-part score with end
tick 960 part B has the single event rest@0 and no note, its member has ticks
`[0]` and flag list `[true]`, and its bounds are `beg_tick = 960` and
`end_tick = 0`, not both 960. -/
theorem getPartsOnsets_rests_only_end_tick_not_final :
    getPartsOnsets (fun t => t) exDuo = some exDuoOut ∧
    finalTick exDuo = some 960 ∧
    partEvents "2" exDuo.elems = [⟨0, true, 960⟩] ∧
    QMap.find? exDuoOut "2" = some exObjB ∧
    exObjB.ticks = [0] ∧
    (aggregate exDuo).map (fun st => QMap.value st.pisrest "2" []) = some [true] ∧
    exObjB.beg_tick = 960 ∧ exObjB.end_tick = 0 ∧
    ¬ (exObjB.beg_tick = 960 ∧ exObjB.end_tick = 960) := by
  refine ⟨rfl, rfl, rfl, rfl, rfl, rfl, rfl, rfl, ?_⟩
  decide

/-- C10, amended: whenever `getPartsOnsets` returns, every listed part that
has rests but no notes has `beg_tick` equal to the final tick of the score and
`end_tick` equal to 0; and the function returns on every well-formed score. -/
theorem getPartsOnsets_rests_only_bounds {τ : Type} (f : Int → τ) (score : Score) :
    (score.WellFormed → ∃ out, getPartsOnsets f score = some out) ∧
    ∀ out, getPartsOnsets f score = some out →
      ∀ p ∈ score.parts, ∀ F, finalTick score = some F →
        partEvents p.id score.elems ≠ [] → partNotes p.id score.elems = [] →
        ∃ obj, QMap.find? out p.id = some obj ∧ obj.beg_tick = F ∧ obj.end_tick = 0 := by
  refine ⟨getPartsOnsets_wellFormed f score, ?_⟩
  intro out hout p hp F hF _ hnil
  obtain ⟨F2, st, hF2, _, hlisted, hmem⟩ := getPartsOnsets_some f score out hout
  rw [hF] at hF2
  simp only [Option.some.injEq] at hF2
  subst hF2
  obtain ⟨obj, hfind⟩ := hlisted p hp
  obtain ⟨hrun, hobj⟩ := hmem p.id obj hfind
  rw [initAcc_listed _ score.parts p hp] at hrun
  obtain ⟨_, _, b3, _, _, b6⟩ := accRun_bounds _ _ _ hrun
  have hno := partNotes_eq_nil _ _ hnil
  subst hobj
  refine ⟨_, hfind, ?_, ?_⟩
  · rcases b3 with b3 | ⟨ev, he, hr, _⟩
    · exact b3
    · exact absurd hr (fun h => hno ev he h)
  · rcases b6 with b6 | ⟨ev, he, hr, _⟩
    · exact b6
    · exact absurd hr (fun h => hno ev he h)

theorem getPartsOnsets_rests_only_bounds_witness :
    (∃ out, getPartsOnsets (fun t => t) exDuo = some out) ∧
    partEvents "2" exDuo.elems ≠ [] ∧ partNotes "2" exDuo.elems = [] ∧
    ∃ obj, QMap.find? exDuoOut "2" = some obj ∧ obj.beg_tick = 960 ∧ obj.end_tick = 0 :=
  ⟨(getPartsOnsets_rests_only_bounds (fun t => t) exDuo).1 exDuo_wellFormed,
    by decide, by decide,
    (getPartsOnsets_rests_only_bounds (fun t => t) exDuo).2 exDuoOut getPartsOnsets_exDuo
      exB (by decide) 960 (by decide) (by decide) (by decide)⟩

/-! ## Properties of `getPartsDescriptions` and `stavesToJson` -/

theorem digitChar_toNat (k : Nat) (h : k < 10) : (Nat.digitChar k).toNat - 48 = k := by
  interval_cases k <;> rfl

theorem foldl_toDigitsCore (fuel : Nat) :
    ∀ (n : Nat) (ds : List Char), n < fuel →
      (Nat.toDigitsCore 10 fuel n ds).foldl (fun a c => 10 * a + (c.toNat - 48)) 0 =
        ds.foldl (fun a c => 10 * a + (c.toNat - 48)) n := by
  induction fuel with
  | zero => intro n ds h; omega
  | succ fuel ih =>
    intro n ds h
    simp only [Nat.toDigitsCore]
    have hd := digitChar_toNat (n % 10) (Nat.mod_lt _ (by decide))
    by_cases h0 : n / 10 = 0
    · simp only [h0, if_true, List.foldl_cons, Nat.mul_zero, Nat.zero_add, hd]
      have : n % 10 = n := by omega
      rw [this]
    · simp only [h0, if_false]
      rw [ih (n / 10) _ (by omega)]
      simp only [List.foldl_cons, hd]
      have : 10 * (n / 10) + n % 10 = n := by omega
      rw [this]

/-- The string `QString.number n` is a decimal numeral of `n`. -/
theorem decimalValue_number (n : Nat) : decimalValue (QString.number n) = n := by
  unfold decimalValue QString.number Nat.repr Nat.toDigits
  simp only [List.asString]
  rw [foldl_toDigitsCore (n + 1) n [] (by omega)]
  rfl

theorem number_injective (m n : Nat) (h : QString.number m = QString.number n) : m = n := by
  have := congrArg decimalValue h
  rwa [decimalValue_number, decimalValue_number] at this


/-- When `unrollRepeats` hands back a score at another address and leaves the
tempo map of the original alone, the original ends with relative tempo 1. -/
theorem relTempoAfter_original (unrollRepeats : (Nat → Rat) → Nat → (Nat → Rat) × Nat)
    (relTempo : Nat → Rat) (score : Nat)
    (hcopy : (unrollRepeats (Function.update relTempo score 1) score).2 ≠ score)
    (hown : (unrollRepeats (Function.update relTempo score 1) score).1 score =
      (Function.update relTempo score 1) score) :
    relTempoAfter unrollRepeats relTempo score score = 1 := by
  unfold relTempoAfter
  rw [Function.update_noteq (fun h => hcopy h.symm), hown, Function.update_same]

/-- C11, evaluated on the code: the score at address 0 has relative tempo 2 and
`unrollRepeats` returns an independent copy at address 1; when
`getPartsDescriptions` returns, the original score has relative tempo 1, not
2, and the saved value has been written to the copy. -/
theorem relTempoAfter_original_not_restored :
    exRelTempo 0 = 2 ∧
    (exUnrollRepeats (Function.update exRelTempo 0 1) 0).2 = 1 ∧
    relTempoAfter exUnrollRepeats exRelTempo 0 0 = 1 ∧
    relTempoAfter exUnrollRepeats exRelTempo 0 0 ≠ exRelTempo 0 ∧
    relTempoAfter exUnrollRepeats exRelTempo 0 1 = 2 := by
  decide

theorem listParts_map (g n : Part → String) (parts : List Part) :
    ∀ pi : Nat,
      (listParts g n parts pi).1.map Part.id =
        (List.range parts.length).map (fun i => QString.number (pi + i)) ∧
      (listParts g n parts pi).2.map PartObj.id =
        (List.range parts.length).map (fun i => QString.number (pi + i)) ∧
      (listParts g n parts pi).1.map Part.addr = parts.map Part.addr := by
  induction parts with
  | nil => intro pi; simp [listParts]
  | cons part rest ih =>
    intro pi
    obtain ⟨h1, h2, h3⟩ := ih (pi + 1)
    have hr : (List.range (rest.length + 1)).map (fun i => QString.number (pi + i)) =
        QString.number pi ::
          (List.range rest.length).map (fun i => QString.number (pi + 1 + i)) := by
      rw [List.range_succ_eq_map, List.map_cons, List.map_map]
      simp only [Nat.add_zero, List.cons.injEq, true_and]
      apply List.map_congr_left
      intro i _
      simp only [Function.comp, Nat.succ_eq_add_one]
      congr 1
      omega
    simp only [listParts, List.map_cons, List.length_cons, h1, h2, h3, hr, and_self]

theorem nodup_map_number (k pi : Nat) :
    ((List.range k).map (fun i => QString.number (pi + i))).Nodup := by
  apply List.Nodup.map_on _ (List.nodup_range k)
  intro a _ b _ h
  have := number_injective _ _ h
  omega

/-- C12: whatever ids the parts carried, after the loop the i-th part object
(in enumeration order, counted from 1) carries the decimal string of i, the
array `p_ar` lists these ids in the same order, over the same part objects, and
the ids are pairwise distinct. -/
theorem listParts_ids (getInstrumentName partName : Part → String) (parts : List Part) :
    (listParts getInstrumentName partName parts 1).1.map Part.id =
      (List.range parts.length).map (fun i => QString.number (i + 1)) ∧
    (listParts getInstrumentName partName parts 1).2.map PartObj.id =
      (List.range parts.length).map (fun i => QString.number (i + 1)) ∧
    (listParts getInstrumentName partName parts 1).1.map Part.addr = parts.map Part.addr ∧
    ((listParts getInstrumentName partName parts 1).1.map Part.id).Nodup ∧
    ((listParts getInstrumentName partName parts 1).2.map PartObj.id).Nodup ∧
    (∀ i, decimalValue (QString.number i) = i) := by
  obtain ⟨h1, h2, h3⟩ := listParts_map getInstrumentName partName parts 1
  have hfun : (fun i => QString.number (1 + i)) = (fun i => QString.number (i + 1)) := by
    funext i
    rw [Nat.add_comm]
  rw [hfun] at h1 h2
  have hnd := nodup_map_number parts.length 1
  rw [hfun] at hnd
  refine ⟨h1, h2, h3, ?_, ?_, decimalValue_number⟩
  · rw [h1]; exact hnd
  · rw [h2]; exact hnd

/-- C13: for two parts that belong to different score objects `partsAreEqual`
returns false, whatever the memory holds, hence whatever notes the two parts
have. -/
theorem partsAreEqual_different_scores (scoreAt : Nat → Score) (p1 p2 : Part)
    (h : p1.score ≠ p2.score) : partsAreEqual scoreAt p1 p2 = false := by
  unfold partsAreEqual
  simp [h]

theorem partsAreEqual_different_scores_witness :
    exGuitar.score ≠ exGuitarElsewhere.score ∧
    noteSeq exTwoScores exGuitar = noteSeq exTwoScores exGuitarElsewhere ∧
    partsAreEqual exTwoScores exGuitar exGuitarElsewhere = false :=
  ⟨by decide, by decide,
    partsAreEqual_different_scores exTwoScores exGuitar exGuitarElsewhere (by decide)⟩

theorem foldl_staffObj (staves : List Staff) :
    ∀ s_ar : List StaffObj,
      staves.foldl (fun s_ar staff => s_ar ++ [staffObj staff]) s_ar =
        s_ar ++ staves.map staffObj := by
  induction staves with
  | nil => intro s_ar; simp
  | cons staff rest ih => intro s_ar; simp [ih]

theorem stavesToJson_eq_map (staves : List Staff) : stavesToJson staves = staves.map staffObj := by
  unfold stavesToJson
  rw [foldl_staffObj]
  rfl

/-- C14: `stavesToJson` returns one entry per staff, in staff order; entry `i`
has type `"standard"` when staff `i` is pitched at `Fraction(0,1)`, otherwise
`"percussion"` when it is a drum staff there, otherwise `"tab"` when it is a tab
staff there, otherwise `"unknown"`. -/
theorem stavesToJson_types (staves : List Staff) :
    (stavesToJson staves).length = staves.length ∧
    ∀ (i : Nat) (staff : Staff), staves[i]? = some staff →
      ∃ obj, (stavesToJson staves)[i]? = some obj ∧
        (staff.isPitchedStaff ⟨0, 1⟩ = true → obj.type = "standard") ∧
        (staff.isPitchedStaff ⟨0, 1⟩ = false → staff.isDrumStaff ⟨0, 1⟩ = true →
          obj.type = "percussion") ∧
        (staff.isPitchedStaff ⟨0, 1⟩ = false → staff.isDrumStaff ⟨0, 1⟩ = false →
          staff.isTabStaff ⟨0, 1⟩ = true → obj.type = "tab") ∧
        (staff.isPitchedStaff ⟨0, 1⟩ = false → staff.isDrumStaff ⟨0, 1⟩ = false →
          staff.isTabStaff ⟨0, 1⟩ = false → obj.type = "unknown") := by
  rw [stavesToJson_eq_map]
  refine ⟨by simp, ?_⟩
  intro i staff hi
  refine ⟨staffObj staff, by simp [hi], ?_, ?_, ?_, ?_⟩
  · intro h1; simp [staffObj, h1]
  · intro h1 h2; simp [staffObj, h1, h2]
  · intro h1 h2 h3; simp [staffObj, h1, h2, h3]
  · intro h1 h2 h3; simp [staffObj, h1, h2, h3]

theorem stavesToJson_types_witness :
    (stavesToJson exStaves).map StaffObj.type = ["standard", "percussion", "tab", "unknown"] ∧
    ∃ staff obj, exStaves[1]? = some staff ∧ (stavesToJson exStaves)[1]? = some obj ∧
      staff.isPitchedStaff ⟨0, 1⟩ = false ∧ staff.isDrumStaff ⟨0, 1⟩ = true ∧
      staff.isTabStaff ⟨0, 1⟩ = true ∧ obj.type = "percussion" := by
  refine ⟨by decide, ?_⟩
  obtain ⟨obj, hobj, _, h2, _, _⟩ := (stavesToJson_types exStaves).2 1 _ rfl
  exact ⟨_, obj, rfl, hobj, rfl, rfl, rfl, h2 rfl rfl⟩

/-- C15: the flag of an enumeration `p0, p1, .., pn` is the conjunction of
`partsAreEqual(p0, pi)` over the later parts, with the first part as first
argument; it is true for no part and for one part; and it is determined by
these comparisons alone: two memories that agree on every `partsAreEqual(p0,
pi)` give the same flag, whatever they say about the other pairs. -/
theorem partsEqualFlag_conjunction (scoreAt : Nat → Score) :
    partsEqualFlag scoreAt [] = true ∧
    (∀ p0, partsEqualFlag scoreAt [p0] = true) ∧
    (∀ p0 rest, partsEqualFlag scoreAt (p0 :: rest) =
      rest.all fun part => partsAreEqual scoreAt p0 part) ∧
    (∀ (scoreAt2 : Nat → Score) p0 rest,
      (∀ part ∈ rest, partsAreEqual scoreAt p0 part = partsAreEqual scoreAt2 p0 part) →
      partsEqualFlag scoreAt (p0 :: rest) = partsEqualFlag scoreAt2 (p0 :: rest)) := by
  refine ⟨rfl, fun p0 => rfl, fun p0 rest => partsEqualFlag_cons scoreAt p0 rest, ?_⟩
  intro scoreAt2 p0 rest h
  rw [partsEqualFlag_cons, partsEqualFlag_cons]
  induction rest with
  | nil => rfl
  | cons part rest ih =>
    simp only [List.all_cons]
    rw [h part (by simp), ih (fun q hq => h q (by simp [hq]))]

theorem partsEqualFlag_conjunction_witness :
    partsAreEqual exScoreAt exTab exShort ≠ partsAreEqual exScoreAtLong exTab exShort ∧
    partsEqualFlag exScoreAt [exGuitar, exTab, exShort] =
      partsEqualFlag exScoreAtLong [exGuitar, exTab, exShort] ∧
    partsEqualFlag exScoreAt [exGuitar, exTab, exShort] = true :=
  ⟨by decide,
    (partsEqualFlag_conjunction exScoreAt).2.2.2 exScoreAtLong exGuitar [exTab, exShort]
      (by decide),
    by decide⟩

/-- C16: for two parts of one score `partsAreEqual(p1, p2)` returns true
exactly when the note sequence of `p2` is an initial segment of the note
sequence of `p1`; the result only depends on as many leading entries of `p1`
as `p2` has notes; and an empty sequence of `p2` always gives true. -/
theorem partsAreEqual_initial_segment (scoreAt : Nat → Score) (p1 p2 : Part)
    (hs : p1.score = p2.score) :
    (partsAreEqual scoreAt p1 p2 = true ↔
      ∃ rest, noteSeq scoreAt p1 = noteSeq scoreAt p2 ++ rest) ∧
    (partsAreEqual scoreAt p1 p2 = true ↔
      (noteSeq scoreAt p1).take (noteSeq scoreAt p2).length = noteSeq scoreAt p2) ∧
    (noteSeq scoreAt p2 = [] → partsAreEqual scoreAt p1 p2 = true) := by
  have h := partsAreEqual_iff scoreAt p1 p2 hs
  refine ⟨?_, ?_, ?_⟩
  · rw [h]
    constructor
    · rintro ⟨rest, hr⟩
      exact ⟨rest, hr.symm⟩
    · rintro ⟨rest, hr⟩
      exact ⟨rest, hr.symm⟩
  · rw [h, List.prefix_iff_eq_take]
    constructor
    · intro e; exact e.symm
    · intro e; exact e.symm
  · intro he
    rw [h, he]
    exact List.nil_prefix

theorem partsAreEqual_initial_segment_witness :
    noteSeq exScoreAt exGuitar = noteSeq exScoreAt exShort ++ [(480, 62)] ∧
    partsAreEqual exScoreAt exGuitar exShort = true ∧
    partsAreEqual exScoreAt exShort exGuitar = false ∧
    noteSeq exScoreAt exSilent = [] ∧
    partsAreEqual exScoreAt exGuitar exSilent = true :=
  ⟨by decide,
    (partsAreEqual_initial_segment exScoreAt exGuitar exShort (by decide)).1.2
      ⟨[(480, 62)], by decide⟩,
    by decide, by decide,
    (partsAreEqual_initial_segment exScoreAt exGuitar exSilent (by decide)).2.2 (by decide)⟩

/-- C17, evaluated on the code: the two parts `exGuitar` and `exShort` of one
score, enumerated in the two possible orders, give the flag true when
`exGuitar` comes first and false when `exShort` comes first. -/
theorem partsEqualFlag_depends_on_order :
    [exGuitar, exShort].Perm [exShort, exGuitar] ∧
    exGuitar.score = exShort.score ∧
    partsEqualFlag exScoreAt [exGuitar, exShort] = true ∧
    partsEqualFlag exScoreAt [exShort, exGuitar] = false := by
  refine ⟨List.Perm.swap _ _ _, ?_, ?_, ?_⟩ <;> decide

/-! ## Locality, safety and consistency of `getPartsOnsets` -/

theorem mem_allParts_of_listed (score : Score) (p : Part) (h : p ∈ score.parts) :
    p ∈ score.allParts :=
  List.mem_append_left _ h

theorem mem_allParts_of_elem (score : Score) (e : Element) (q : Part) (he : e ∈ score.elems)
    (hq : e.part? = some q) : q ∈ score.allParts :=
  List.mem_append_right _ (List.mem_filterMap.2 ⟨e, he, hq⟩)

/-- With pairwise distinct ids, the events of a listed part object are the
events filed under its id. -/
theorem ownEvents_eq_partEvents (score : Score) (P : Part) (hd : score.DistinctIds)
    (hP : P ∈ score.parts) : ownEvents P score.elems = partEvents P.id score.elems := by
  unfold ownEvents partEvents
  apply List.filterMap_congr
  intro e he
  have hPall := mem_allParts_of_listed score P hP
  cases e with
  | other => rfl
  | rest part tick dur =>
    have h := hd part (mem_allParts_of_elem score _ part he rfl) P hPall
    by_cases ha : part.addr = P.addr
    · simp [ownEventOf, eventOf, ha, h.2 ha]
    · have hi : ¬ part.id = P.id := fun hh => ha (h.1 hh)
      simp [ownEventOf, eventOf, ha, hi]
  | note part tick pitch dur =>
    have h := hd part (mem_allParts_of_elem score _ part he rfl) P hPall
    by_cases ha : part.addr = P.addr
    · simp [ownEventOf, eventOf, ha, h.2 ha]
    · have hi : ¬ part.id = P.id := fun hh => ha (h.1 hh)
      simp [ownEventOf, eventOf, ha, hi]

/-- C18: with pairwise distinct part ids, for a part object `P` listed in two
scores that have the same final tick and the same sub-list of events
belonging to `P`, whenever `getPartsOnsets` returns on both the member stored
under the id of `P` is the same in the two results, and so are the values the
maps hold for it (ticks, flags, last-seen tick, bounds); and the function
returns on every well-formed score. -/
theorem getPartsOnsets_entry_local {τ : Type} (f : Int → τ) (s1 s2 : Score) (P : Part) :
    (s1.WellFormed → ∃ out, getPartsOnsets f s1 = some out) ∧
    (s2.WellFormed → ∃ out, getPartsOnsets f s2 = some out) ∧
    ∀ out1 out2 st1 st2,
      s1.DistinctIds → s2.DistinctIds → P ∈ s1.parts → P ∈ s2.parts →
      finalTick s1 = finalTick s2 → ownEvents P s1.elems = ownEvents P s2.elems →
      getPartsOnsets f s1 = some out1 → getPartsOnsets f s2 = some out2 →
      aggregate s1 = some st1 → aggregate s2 = some st2 →
      (∃ obj, QMap.find? out1 P.id = some obj ∧ QMap.find? out2 P.id = some obj) ∧
      st1.view P.id = st2.view P.id := by
  refine ⟨getPartsOnsets_wellFormed f s1, getPartsOnsets_wellFormed f s2, ?_⟩
  intro out1 out2 st1 st2 hd1 hd2 hP1 hP2 hF hev ho1 ho2 ha1 ha2
  obtain ⟨F1, t1, hF1, hagg1, hl1, hm1⟩ := getPartsOnsets_some f s1 out1 ho1
  obtain ⟨F2, t2, hF2, hagg2, hl2, hm2⟩ := getPartsOnsets_some f s2 out2 ho2
  rw [ha1] at hagg1
  rw [ha2] at hagg2
  have e1 : t1 = st1 := (Option.some.inj hagg1).symm
  have e2 : t2 = st2 := (Option.some.inj hagg2).symm
  subst e1; subst e2
  have hFF : F1 = F2 := by
    rw [hF1, hF2] at hF
    exact Option.some.inj hF
  subst hFF
  obtain ⟨obj1, hf1⟩ := hl1 P hP1
  obtain ⟨obj2, hf2⟩ := hl2 P hP2
  obtain ⟨hr1, hobj1⟩ := hm1 P.id obj1 hf1
  obtain ⟨hr2, hobj2⟩ := hm2 P.id obj2 hf2
  rw [initAcc_listed F1 s1.parts P hP1, ← ownEvents_eq_partEvents s1 P hd1 hP1] at hr1
  rw [initAcc_listed F1 s2.parts P hP2, ← ownEvents_eq_partEvents s2 P hd2 hP2, ← hev] at hr2
  rw [hr1] at hr2
  have hv : t1.view P.id = t2.view P.id := Option.some.inj hr2
  refine ⟨⟨obj1, hf1, ?_⟩, hv⟩
  rw [hf2, hobj2, hobj1, hv]

theorem exDuoAlt_wellFormed : exDuoAlt.WellFormed := by
  refine ⟨by decide, ?_, ?_⟩
  · unfold Score.Attached; decide
  · unfold Score.NonNegTicks; decide

theorem getPartsOnsets_entry_local_witness :
    (∃ out, getPartsOnsets (fun t => t) exDuo = some out) ∧
    (∃ out, getPartsOnsets (fun t => t) exDuoAlt = some out) ∧
    exDuo.elems ≠ exDuoAlt.elems ∧
    ownEvents exB exDuo.elems ≠ ownEvents exB exDuoAlt.elems ∧
    ownEvents exA exDuo.elems = ownEvents exA exDuoAlt.elems ∧
    ∃ out1 out2 st1 st2,
      getPartsOnsets (fun t => t) exDuo = some out1 ∧
      getPartsOnsets (fun t => t) exDuoAlt = some out2 ∧
      aggregate exDuo = some st1 ∧ aggregate exDuoAlt = some st2 ∧
      (∃ obj, QMap.find? out1 exA.id = some obj ∧ QMap.find? out2 exA.id = some obj) ∧
      st1.view exA.id = st2.view exA.id :=
  ⟨(getPartsOnsets_entry_local (fun t => t) exDuo exDuoAlt exA).1 exDuo_wellFormed,
    (getPartsOnsets_entry_local (fun t => t) exDuo exDuoAlt exA).2.1 exDuoAlt_wellFormed,
    by decide, by decide, by decide,
    _, _, _, _, rfl, rfl, rfl, rfl,
    (getPartsOnsets_entry_local (fun t => t) exDuo exDuoAlt exA).2.2 _ _ _ _
      (by unfold Score.DistinctIds; decide) (by unfold Score.DistinctIds; decide)
      (by decide) (by decide) (by decide) (by decide) rfl rfl rfl rfl⟩

theorem accMerge_earlier (a : PartAcc) (tick : Int) (r : Bool) (h : tick < a.plt) :
    accMerge a tick r = some a := by
  unfold accMerge
  have h1 : ¬ tick > a.plt := by omega
  have h2 : ¬ tick = a.plt := by omega
  simp [h1, h2]

theorem accMerge_lastSeen (a : PartAcc) (tick : Int) (r : Bool) (hi : LastSeenInv a)
    (ht : 0 ≤ tick) : ∃ a2, accMerge a tick r = some a2 ∧ LastSeenInv a2 := by
  obtain ⟨hlen, hnil, hlast⟩ := hi
  by_cases h1 : tick > a.plt
  · refine ⟨_, accMerge_push a tick r h1, ?_, ?_, ?_⟩
    · simp [hlen]
    · intro h; simp at h
    · intro _; simp
  · by_cases h2 : tick = a.plt
    · have hne : a.onsets ≠ [] := by
        intro h
        have := hnil h
        omega
      have hne2 : a.isrest ≠ [] := by
        intro h
        rw [h] at hlen
        exact hne (List.length_eq_zero.1 hlen.symm)
      cases h3 : a.isrest.getLast? with
      | none => exact absurd (List.getLast?_eq_none_iff.1 h3) hne2
      | some b =>
        obtain ⟨l, hl⟩ := List.getLast?_eq_some_iff.1 h3
        refine ⟨_, accMerge_same a tick r h2 l b hl, ?_, ?_, ?_⟩
        · simp only [List.length_append, List.length_singleton]
          rw [← hlen, hl]
          simp
        · intro h; exact absurd h hne
        · intro _; exact hlast hne
    · exact ⟨a, accMerge_earlier a tick r (by omega), hlen, hnil, hlast⟩

theorem accStep_lastSeen (a : PartAcc) (ev : Ev) (hi : LastSeenInv a) (ht : 0 ≤ ev.tick) :
    ∃ a2, accStep a ev = some a2 ∧ LastSeenInv a2 := by
  unfold accStep
  by_cases hr : ev.isRest = true
  · simp only [hr, if_true]
    exact accMerge_lastSeen a ev.tick true hi ht
  · simp only [hr]
    apply accMerge_lastSeen _ ev.tick false _ ht
    unfold LastSeenInv
    rw [accBounds_isrest, accBounds_onsets, accBounds_plt]
    exact hi

theorem accRun_lastSeen (evs : List Ev) :
    ∀ a : PartAcc, LastSeenInv a → (∀ ev ∈ evs, 0 ≤ ev.tick) →
      ∃ a2, accRun a evs = some a2 ∧ LastSeenInv a2 := by
  induction evs with
  | nil => intro a hi _; exact ⟨a, by simp [accRun, pure], hi⟩
  | cons ev evs ih =>
    intro a hi ht
    obtain ⟨a1, h1, hi1⟩ := accStep_lastSeen a ev hi (ht ev (by simp))
    obtain ⟨a2, h2, hi2⟩ := ih a1 hi1 (fun e he => ht e (by simp [he]))
    exact ⟨a2, by rw [accRun_cons, h1]; exact h2, hi2⟩

theorem wellFormed_take (score : Score) (n : Nat) (h : score.WellFormed) :
    Score.WellFormed { score with elems := score.elems.take n } := by
  obtain ⟨hm, hat, hnn⟩ := h
  refine ⟨hm, ?_, ?_⟩
  · intro e he p hp
    exact hat e (List.mem_of_mem_take he) p hp
  · intro p hp ev hev
    apply hnn p hp ev
    unfold partEvents at hev ⊢
    obtain ⟨e, he, hee⟩ := List.mem_filterMap.1 hev
    exact List.mem_filterMap.2 ⟨e, List.mem_of_mem_take he, hee⟩

/-- C19: on a score with a last measure in which every note and rest has a
non-negative tick and belongs to a listed part, after the initialisation loop
and after each iteration of the aggregation loop the maps exist and hold, for
every listed part, a tick list and a flag list of the same length and a
last-seen tick that is `-1` when the lists are empty and the last tick of the
list otherwise; so no iteration applies `last()` to an empty list (the loop
reaches its end), and the output loop never indexes past the flag list (the
function returns). -/
theorem aggregate_invariant {τ : Type} (f : Int → τ) (score : Score)
    (hwf : score.WellFormed) :
    (∀ n, ∃ st, aggregateUpTo score n = some st ∧
      ∀ p ∈ score.parts,
        (QMap.value st.pisrest p.id []).length = (QMap.value st.ponsets p.id []).length ∧
        (QMap.value st.ponsets p.id [] = [] → QMap.value st.plt p.id 0 = -1) ∧
        (QMap.value st.ponsets p.id [] ≠ [] →
          (QMap.value st.ponsets p.id []).getLast? = some (QMap.value st.plt p.id 0))) ∧
    (∃ st, aggregate score = some st) ∧
    (∃ out, getPartsOnsets f score = some out) := by
  have key : ∀ n, ∃ st, aggregateUpTo score n = some st ∧
      ∀ p ∈ score.parts, LastSeenInv (st.view p.id) := by
    intro n
    have hwf2 := wellFormed_take score n hwf
    obtain ⟨out, hout⟩ := getPartsOnsets_wellFormed f _ hwf2
    obtain ⟨F, st, _, hagg, _, _⟩ := getPartsOnsets_some f _ out hout
    refine ⟨st, hagg, ?_⟩
    intro p hp
    have hagg2 := hagg
    unfold aggregate at hagg2
    cases hF : finalTick { score with elems := score.elems.take n } with
    | none => simp [hF] at hagg2
    | some F2 =>
      simp only [hF] at hagg2
      have hrun := (foldlM_processElem_some _ _ _ hagg2 p.id).1
      rw [view_init, initAcc_listed F2 _ p hp] at hrun
      obtain ⟨a2, hrun2, hinv⟩ := accRun_lastSeen (partEvents p.id (score.elems.take n))
        ⟨-1, [], [], F2, 0⟩ ⟨rfl, fun _ => rfl, fun h => absurd rfl h⟩ (hwf2.2.2 p hp)
      unfold accRun at hrun2
      rw [hrun] at hrun2
      rw [Option.some.inj hrun2]
      exact hinv
  refine ⟨?_, ?_, getPartsOnsets_wellFormed f score hwf⟩
  · intro n
    obtain ⟨st, hst, hinv⟩ := key n
    exact ⟨st, hst, fun p hp => hinv p hp⟩
  · obtain ⟨out, hout⟩ := getPartsOnsets_wellFormed f score hwf
    obtain ⟨_, st, _, hagg, _, _⟩ := getPartsOnsets_some f score out hout
    exact ⟨st, hagg⟩

theorem aggregate_invariant_witness :
    (∀ n, ∃ st, aggregateUpTo exDuo n = some st ∧
      ∀ p ∈ exDuo.parts,
        (QMap.value st.pisrest p.id []).length = (QMap.value st.ponsets p.id []).length ∧
        (QMap.value st.ponsets p.id [] = [] → QMap.value st.plt p.id 0 = -1) ∧
        (QMap.value st.ponsets p.id [] ≠ [] →
          (QMap.value st.ponsets p.id []).getLast? = some (QMap.value st.plt p.id 0))) ∧
    (∃ st, aggregate exDuo = some st) ∧
    (∃ out, getPartsOnsets (fun t => t) exDuo = some out) ∧
    (aggregateUpTo exDuo 1).map (fun st => (st.view "1", st.view "2")) =
      some (⟨0, [0], [false], 0, 480⟩, ⟨-1, [], [], 960, 0⟩) :=
  ⟨(aggregate_invariant (fun t => t) exDuo exDuo_wellFormed).1,
    (aggregate_invariant (fun t => t) exDuo exDuo_wellFormed).2.1,
    (aggregate_invariant (fun t => t) exDuo exDuo_wellFormed).2.2,
    rfl⟩

/-- A run that finishes on events in non-decreasing tick order whose notes
have non-negative ticks has skipped every event with a negative tick. -/
theorem accRun_filter_nonneg (F : Int) (evs : List Ev) :
    (evs.map Ev.tick).Pairwise (· ≤ ·) →
    (∀ ev ∈ evs, ev.isRest = false → 0 ≤ ev.tick) →
    ∀ a, accRun ⟨-1, [], [], F, 0⟩ evs = some a →
      accRun ⟨-1, [], [], F, 0⟩ (evs.filter fun ev => decide (0 ≤ ev.tick)) = some a := by
  induction evs with
  | nil => intro _ _ a h; simpa using h
  | cons ev evs ih =>
    intro hs hn a h
    rw [List.map_cons, List.pairwise_cons] at hs
    obtain ⟨hle, hs2⟩ := hs
    by_cases h0 : 0 ≤ ev.tick
    · have hall : ∀ e ∈ ev :: evs, decide (0 ≤ e.tick) = true := by
        intro e he
        rcases List.mem_cons.1 he with he | he
        · rw [he]; simpa using h0
        · have := hle e.tick (List.mem_map_of_mem _ he)
          simp only [decide_eq_true_eq]
          omega
      rw [List.filter_eq_self.2 hall]
      exact h
    · have hrest : ev.isRest = true := by
        cases hr : ev.isRest with
        | true => rfl
        | false => exact absurd (hn ev (by simp) hr) h0
      have hf : (List.filter (fun e => decide (0 ≤ e.tick)) (ev :: evs)) =
          List.filter (fun e => decide (0 ≤ e.tick)) evs := by
        rw [List.filter_cons]
        simp [h0]
      rw [hf]
      rw [accRun_cons] at h
      have hstep : accStep ⟨-1, [], [], F, 0⟩ ev = some ⟨-1, [], [], F, 0⟩ := by
        by_cases hm : ev.tick = -1
        · exfalso
          have : accStep ⟨-1, [], [], F, 0⟩ ev = none := by
            simp [accStep, hrest, accMerge, hm]
          rw [this] at h
          simp at h
        · have hlt : ev.tick < (⟨-1, [], [], F, 0⟩ : PartAcc).plt := by
            simp only
            omega
          simp only [accStep, hrest, if_true]
          exact accMerge_earlier _ ev.tick true hlt
      rw [hstep] at h
      exact ih hs2 (fun e he hr => hn e (by simp [he]) hr) a h

theorem mem_nonrestOf (Z : List (Int × Bool)) (t : Int) :
    t ∈ nonrestOf (Z.map Prod.fst) (Z.map Prod.snd) ↔ (t, false) ∈ Z := by
  unfold nonrestOf
  rw [zip_map_fst_snd]
  simp only [List.mem_map, List.mem_filter]
  constructor
  · rintro ⟨⟨t2, b⟩, ⟨hmem, hb⟩, ht⟩
    simp only at ht
    subst ht
    cases b with
    | false => exact hmem
    | true => simp at hb
  · intro h
    exact ⟨(t, false), ⟨h, by simp⟩, rfl⟩

theorem pairwise_nonrestOf (Z : List (Int × Bool)) (h : (Z.map Prod.fst).Pairwise (· < ·)) :
    (nonrestOf (Z.map Prod.fst) (Z.map Prod.snd)).Pairwise (· < ·) := by
  unfold nonrestOf
  rw [zip_map_fst_snd]
  exact List.Pairwise.sublist (List.Sublist.map _ (List.filter_sublist _)) h

/-- For merged events, the ticks listed as non-rest are the ticks of the
notes. -/
theorem merged_nonrest (evs : List Ev) (a : PartAcc) (Z : List (Int × Bool))
    (hm : Merged evs a Z) (t : Int) :
    t ∈ nonrestOf a.onsets a.isrest ↔ ∃ ev ∈ evs, ev.isRest = false ∧ ev.tick = t := by
  obtain ⟨m1, m2, _, m4, m5, _, _⟩ := hm
  rw [m1, m2, mem_nonrestOf]
  constructor
  · intro hin
    have h5 := m5 t false hin
    by_contra hno
    have : ∀ ev ∈ evs, ev.tick = t → ev.isRest = true := by
      intro ev hev htick
      cases hr : ev.isRest with
      | true => rfl
      | false => exact absurd ⟨ev, hev, hr, htick⟩ hno
    have := h5.2 this
    simp at this
  · rintro ⟨ev, hev, hr, htick⟩
    have ht : t ∈ Z.map Prod.fst := (m4 t).2 ⟨ev, hev, htick⟩
    obtain ⟨⟨t2, b⟩, hmem, hfst⟩ := List.mem_map.1 ht
    simp only at hfst
    subst hfst
    cases b with
    | false => exact hmem
    | true =>
      have := (m5 t2 true hmem).1 rfl ev hev htick
      rw [hr] at this
      simp at this

/-- C20: whenever `getPartsOnsets` returns, for a listed part whose events
come in non-decreasing tick order and whose notes have ticks in
`[0, final_tick]`, `"nonrest_ticks"` is non-empty exactly when the part has a
note, and then its first element is `beg_tick`; and the function returns on
every well-formed score. -/
theorem getPartsOnsets_nonrest_consistent {τ : Type} (f : Int → τ) (score : Score) :
    (score.WellFormed → ∃ out, getPartsOnsets f score = some out) ∧
    ∀ out, getPartsOnsets f score = some out →
      ∀ p ∈ score.parts, ∀ F, finalTick score = some F →
        ((partEvents p.id score.elems).map Ev.tick).Pairwise (· ≤ ·) →
        (∀ ev ∈ partNotes p.id score.elems, 0 ≤ ev.tick ∧ ev.tick ≤ F) →
        ∃ obj, QMap.find? out p.id = some obj ∧
          (obj.nonrest_ticks ≠ [] ↔ partNotes p.id score.elems ≠ []) ∧
          (partNotes p.id score.elems ≠ [] → obj.nonrest_ticks.head? = some obj.beg_tick) := by
  refine ⟨getPartsOnsets_wellFormed f score, ?_⟩
  intro out hout p hp F hF hsorted hnotes
  obtain ⟨F2, st, hF2, _, hlisted, hmem⟩ := getPartsOnsets_some f score out hout
  rw [hF] at hF2
  have hFF : F = F2 := Option.some.inj hF2
  subst hFF
  obtain ⟨obj, hfind⟩ := hlisted p hp
  obtain ⟨hrun, hobj⟩ := hmem p.id obj hfind
  rw [initAcc_listed F score.parts p hp] at hrun
  have hnn : ∀ ev ∈ partEvents p.id score.elems, ev.isRest = false → 0 ≤ ev.tick :=
    fun ev hev hr => (hnotes ev ((mem_partNotes _ _ _).2 ⟨hev, hr⟩)).1
  have hrun2 := accRun_filter_nonneg F _ hsorted hnn _ hrun
  have hsorted2 : (((partEvents p.id score.elems).filter
      fun ev => decide (0 ≤ ev.tick)).map Ev.tick).Pairwise (· ≤ ·) :=
    List.Pairwise.sublist (List.Sublist.map _ (List.filter_sublist _)) hsorted
  have hnn2 : ∀ ev ∈ (partEvents p.id score.elems).filter (fun ev => decide (0 ≤ ev.tick)),
      0 ≤ ev.tick := by
    intro ev hev
    exact of_decide_eq_true (List.mem_filter.1 hev).2
  obtain ⟨a, Z, hrun3, hm⟩ := accRun_merged F _ hnn2 hsorted2
  rw [hrun2] at hrun3
  have ha : st.view p.id = a := Option.some.inj hrun3
  have hnr := merged_nonrest _ a Z hm
  have hpw : (nonrestOf a.onsets a.isrest).Pairwise (· < ·) := by
    obtain ⟨m1, m2, m3, _⟩ := hm
    rw [m1, m2]
    exact pairwise_nonrestOf Z m3
  have hnrobj : obj.nonrest_ticks = nonrestOf a.onsets a.isrest := by
    rw [hobj, ha]; rfl
  have hbeg : obj.beg_tick = a.first := by
    rw [hobj, ha]; rfl
  have hnote_in : ∀ n ∈ partNotes p.id score.elems, n.tick ∈ nonrestOf a.onsets a.isrest := by
    intro n hn
    have hn2 := (mem_partNotes _ _ _).1 hn
    have h0 := (hnotes n hn).1
    exact (hnr n.tick).2 ⟨n, List.mem_filter.2 ⟨hn2.1, by simpa using h0⟩, hn2.2, rfl⟩
  have hin_note : ∀ t ∈ nonrestOf a.onsets a.isrest,
      ∃ n ∈ partNotes p.id score.elems, n.tick = t := by
    intro t ht
    obtain ⟨ev, hev, hr, htick⟩ := (hnr t).1 ht
    exact ⟨ev, (mem_partNotes _ _ _).2 ⟨(List.mem_filter.1 hev).1, hr⟩, htick⟩
  refine ⟨obj, hfind, ?_, ?_⟩
  · rw [hnrobj]
    constructor
    · intro hne
      obtain ⟨t, ht⟩ := List.exists_mem_of_ne_nil _ hne
      obtain ⟨n, hn, _⟩ := hin_note t ht
      exact List.ne_nil_of_mem hn
    · intro hne
      obtain ⟨n, hn⟩ := List.exists_mem_of_ne_nil _ hne
      exact List.ne_nil_of_mem (hnote_in n hn)
  · intro hne
    rw [hnrobj, hbeg]
    obtain ⟨n, hn⟩ := List.exists_mem_of_ne_nil _ hne
    obtain ⟨_, b2, b3, _, _, _⟩ := accRun_bounds _ _ _ hrun
    rw [ha] at b2 b3
    simp only at b3
    have hfirst : a.first ∈ nonrestOf a.onsets a.isrest := by
      rcases b3 with b3 | ⟨ev, hev, hr, hq⟩
      · have hn2 := (mem_partNotes _ _ _).1 hn
        have h1 := b2 n hn2.1 hn2.2
        have h2 := (hnotes n hn).2
        have : a.first = n.tick := by omega
        rw [this]
        exact hnote_in n hn
      · rw [hq]
        exact hnote_in ev ((mem_partNotes _ _ _).2 ⟨hev, hr⟩)
    cases hl : nonrestOf a.onsets a.isrest with
    | nil => rw [hl] at hfirst; simp at hfirst
    | cons h tl =>
      rw [hl] at hfirst hpw
      have hh : h ∈ nonrestOf a.onsets a.isrest := by rw [hl]; simp
      obtain ⟨m, hm1, hm2⟩ := hin_note h hh
      have hm3 := (mem_partNotes _ _ _).1 hm1
      have hle := b2 m hm3.1 hm3.2
      rw [List.pairwise_cons] at hpw
      simp only [List.head?_cons, Option.some.injEq]
      rcases List.mem_cons.1 hfirst with he | he
      · exact he.symm
      · have := hpw.1 a.first he
        omega

theorem getPartsOnsets_nonrest_consistent_witness :
    (∃ out, getPartsOnsets (fun t => t) exDuo = some out) ∧
    getPartsOnsets (fun t => t) exDuo = some exDuoOut ∧
    partNotes "1" exDuo.elems ≠ [] ∧
    ∃ obj, QMap.find? exDuoOut "1" = some obj ∧
      (obj.nonrest_ticks ≠ [] ↔ partNotes "1" exDuo.elems ≠ []) ∧
      obj.nonrest_ticks.head? = some obj.beg_tick := by
  refine ⟨(getPartsOnsets_nonrest_consistent (fun t => t) exDuo).1 exDuo_wellFormed,
    getPartsOnsets_exDuo, by decide, ?_⟩
  obtain ⟨obj, hfind, h1, h2⟩ := (getPartsOnsets_nonrest_consistent (fun t => t) exDuo).2
    exDuoOut getPartsOnsets_exDuo exA (by decide) 960 (by decide) (by decide) (by decide)
  exact ⟨obj, hfind, h1, h2 (by decide)⟩

end Ms
